import Mathlib

/-!
Verification of the reservation planner of EPGStation
(src/server/Operator/ReservationManager.ts).

The TypeScript source is shallowly embedded below: each private/public method
of ReservationManager becomes a Lean function over an explicit `ManagerState`,
mirroring the source's control flow.  Epoch-millisecond times, program ids,
manual ids and rule ids are `Nat`; nullable columns are `Option`; a thrown
exception from a collaborator (`ProgramsDB`, `RulesDB`) is `Option.none` in
the corresponding capability record.  File writes (`writeReservesFile`) are
logged in the `saved` field of the state.
-/

set_option maxHeartbeats 1600000

/-- Channel type of a broadcast program. -/
inductive ChannelType
| GR
| BS
| CS
| SKY
deriving DecidableEq

/-- The fields of `DBSchema.ProgramSchema` that the reservation manager
reads: `id`, `startAt`, `endAt`, `channelType`.  The remaining descriptive
fields are opaque pass-through and omitted. -/
structure Program where
  id : Nat
  startAt : Nat
  endAt : Nat
  channelType : ChannelType
deriving DecidableEq

/-- `EncodeInterface` (RuleInterface.ts): the encode option attached to a
reservation.  Opaque payloads (modes, directories) are modelled as `Nat`. -/
structure EncodeInterface where
  delTs : Bool
  mode1 : Option Nat := none
  directory1 : Option Nat := none
  mode2 : Option Nat := none
  directory2 : Option Nat := none
  mode3 : Option Nat := none
  directory3 : Option Nat := none
deriving DecidableEq

/-- `OptionInterface` (RuleInterface.ts): per-rule output option. -/
structure OptionInterface where
  enable : Bool
  directory : Option Nat := none
  recordedFormat : Option Nat := none
deriving DecidableEq

/-- `SearchInterface` (RuleInterface.ts): the query record passed to
`ProgramsDB.findRule`.  `week` is always present, every other field is
optional. -/
structure SearchInterface where
  week : Nat
  keyword : Option Nat := none
  ignoreKeyword : Option Nat := none
  keyCS : Option Bool := none
  keyRegExp : Option Bool := none
  title : Option Bool := none
  description : Option Bool := none
  extended : Option Bool := none
  GR : Option Bool := none
  BS : Option Bool := none
  CS : Option Bool := none
  SKY : Option Bool := none
  station : Option Nat := none
  genrelv1 : Option Nat := none
  genrelv2 : Option Nat := none
  startTime : Option Nat := none
  timeRange : Option Nat := none
  isFree : Option Bool := none
  durationMin : Option Nat := none
  durationMax : Option Nat := none
deriving DecidableEq

/-- `DBSchema.RulesSchema`: the rule-record fields read by
`createSearchOption`, `createOption` and `createEncodeOption`.  Nullable
columns are `Option`; opaque payloads are `Nat`. -/
structure RulesSchema where
  id : Nat
  enable : Bool
  week : Nat
  keyword : Option Nat := none
  ignoreKeyword : Option Nat := none
  keyCS : Option Bool := none
  keyRegExp : Option Bool := none
  title : Option Bool := none
  description : Option Bool := none
  extended : Option Bool := none
  GR : Option Bool := none
  BS : Option Bool := none
  CS : Option Bool := none
  SKY : Option Bool := none
  station : Option Nat := none
  genrelv1 : Option Nat := none
  genrelv2 : Option Nat := none
  startTime : Option Nat := none
  timeRange : Option Nat := none
  isFree : Option Bool := none
  durationMin : Option Nat := none
  durationMax : Option Nat := none
  directory : Option Nat := none
  recordedFormat : Option Nat := none
  delTs : Option Bool := none
  mode1 : Option Nat := none
  directory1 : Option Nat := none
  mode2 : Option Nat := none
  directory2 : Option Nat := none
  mode3 : Option Nat := none
  directory3 : Option Nat := none
deriving DecidableEq

/-- `ReserveProgram` (ReserveProgramInterface.ts, reconstructed from its uses
in ReservationManager.ts): one reservation record. -/
structure ReserveProgram where
  program : Program
  ruleId : Option Nat := none
  ruleOption : Option OptionInterface := none
  isManual : Bool := false
  manualId : Option Nat := none
  isSkip : Bool := false
  isConflict : Bool := false
  encodeOption : Option EncodeInterface := none
deriving DecidableEq

instance : Inhabited ReserveProgram :=
  ⟨{ program := { id := 0, startAt := 0, endAt := 0, channelType := ChannelType.GR } }⟩

/-- Modelled from the spec: class `Tuner` (src/server/Operator/Tuner.ts) is
not under src.  Spec 4.A: an immutable set of acceptable channel types plus
the transient list of currently held programs. -/
structure Tuner where
  types : List ChannelType
  programs : List Program := []
deriving DecidableEq

/-- Modelled from the spec: `Tuner#clear` discards all held programs. -/
def Tuner.clear (t : Tuner) : Tuner := { t with programs := [] }

/-- Modelled from the spec: `Tuner#add` succeeds iff the channel type is in
the tuner's acceptable set and the program does not time-overlap any held
program (half-open intervals); the source signals failure by throwing, here
failure is `none`. -/
def Tuner.tryAdd (t : Tuner) (p : Program) : Option Tuner :=
  if p.channelType ∈ t.types ∧ ∀ q ∈ t.programs, ¬(q.startAt < p.endAt ∧ p.startAt < q.endAt) then
    some { t with programs := t.programs ++ [p] }
  else none

/-- `sortReserveProgram`: the authority-order comparator of the source,
returning an integer like the TS comparator.  manual before rule; among two
manuals the smaller `manualId` first; among two rules the smaller `ruleId`
first. -/
def sortReserveProgram (a b : ReserveProgram) : Int :=
  if a.isManual && b.isManual then ((a.manualId.getD 0 : Nat) : Int) - ((b.manualId.getD 0 : Nat) : Int)
  else if a.isManual && !b.isManual then -1
  else if !a.isManual && b.isManual then 1
  else ((a.ruleId.getD 0 : Nat) : Int) - ((b.ruleId.getD 0 : Nat) : Int)

/-- Stable insertion used to model ES2019 `Array.prototype.sort` (which is
stable): `x` goes before the first element `y` with `le x y`. -/
def insertSorted (le : α → α → Bool) (x : α) : List α → List α
  | [] => [x]
  | y :: ys => if le x y then x :: y :: ys else y :: insertSorted le x ys

/-- Stable sort (insertion sort) used to model `Array.prototype.sort` with a
numeric comparator `c`, taking `le a b` to mean `c a b ≤ 0`. -/
def sortBy (le : α → α → Bool) : List α → List α
  | [] => []
  | x :: xs => insertSorted le x (sortBy le xs)

/-- Boolean form of the authority order: `sortReserveProgram a b ≤ 0`. -/
def rleb (a b : ReserveProgram) : Bool := decide (sortReserveProgram a b ≤ 0)

/-- Boolean `startAt` order used by the final sorts of the source. -/
def startLe (a b : ReserveProgram) : Bool := decide (a.program.startAt ≤ b.program.startAt)

/-- A sweep event of `createReserves`: `(time, isStart, idx)` where `idx` is
the index of the candidate in the authority-sorted array. -/
structure SweepEvent where
  time : Nat
  isStart : Bool
  idx : Nat
deriving DecidableEq

/-- Boolean time order on sweep events (`a.time - b.time` in the source). -/
def timeLe (a b : SweepEvent) : Bool := decide (a.time ≤ b.time)

/-- Pair each element of a list with its index, starting at `n` (the source's
`for (i = 0; ...)` loop counter). -/
def withIdx : Nat → List α → List (Nat × α)
  | _, [] => []
  | n, x :: xs => (n, x) :: withIdx (n + 1) xs

/-- Event construction of `createReserves`: walk the sorted candidates in
index order, drop any candidate whose `program.id` was already seen
(deduplication), and push a start and an end event for each kept one. -/
def buildEventsGo : List (Nat × ReserveProgram) → List Nat → List SweepEvent
  | [], _ => []
  | (i, m) :: rest, seen =>
    if m.program.id ∈ seen then buildEventsGo rest seen
    else
      { time := m.program.startAt, isStart := true, idx := i }
        :: { time := m.program.endAt, isStart := false, idx := i }
        :: buildEventsGo rest (m.program.id :: seen)

/-- The dedup-and-event stage of `createReserves`. -/
def buildEvents (ms : List ReserveProgram) : List SweepEvent :=
  buildEventsGo (withIdx 0 ms) []

/-- Try the tuners in index order; the first one that accepts the program is
replaced by its updated copy (the source's inner for-loop with `break`). -/
def tunersAddFirst : List Tuner → Program → Option (List Tuner)
  | [], _ => none
  | t :: ts, p =>
    match t.tryAdd p with
    | some t2 => some (t2 :: ts)
    | none => (tunersAddFirst ts p).map (fun ts2 => t :: ts2)

/-- Evaluation loop of one sweep event: iterate the active candidates in the
given (authority-sorted) order, skip `isSkip` candidates, try each tuner in
index order, and set `isConflict := true` on the array entry when no tuner
accepts the candidate. -/
def evalActive (tuners : List Tuner) : List Nat → List ReserveProgram → List ReserveProgram
  | [], arr => arr
  | i :: rest, arr =>
    if (arr.getD i default).isSkip then evalActive tuners rest arr
    else
      match tunersAddFirst tuners (arr.getD i default).program with
      | some tuners2 => evalActive tuners2 rest arr
      | none => evalActive tuners rest (arr.set i { arr.getD i default with isConflict := true })

/-- One sweep event of `createReserves`: candidates with `isSkip` are ignored
entirely; otherwise the active set is updated (push on start, filter on end),
re-sorted by the authority order, the tuners are cleared, and the active set
is re-evaluated. -/
def sweepStep (tuners : List Tuner) (st : List ReserveProgram × List Nat) (e : SweepEvent) :
    List ReserveProgram × List Nat :=
  if (st.1.getD e.idx default).isSkip then st
  else
    let active2 := if e.isStart then st.2 ++ [e.idx] else st.2.filter (fun j => decide (j ≠ e.idx))
    let active3 := sortBy (fun i j => rleb (st.1.getD i default) (st.1.getD j default)) active2
    (evalActive (tuners.map Tuner.clear) active3 st.1, active3)

/-- `createReserves`: the conflict resolver.  Sort the candidates by the
authority order, build the deduplicated sweep events, sort them by time, run
the sweep, and emit the surviving candidates sorted by `startAt`. -/
def createReserves (tuners : List Tuner) (cands : List ReserveProgram) : List ReserveProgram :=
  let ms := sortBy rleb cands
  let events := sortBy timeLe (buildEvents ms)
  let arr := (events.foldl (sweepStep tuners) (ms, [])).1
  sortBy startLe ((events.filter (fun e => e.isStart)).map (fun e => arr.getD e.idx default))

/-- Variant of the evaluation loop following the words of the specification
for claim C1: when some tuner accepts the candidate its `isConflict` is reset
to `false` (the source never resets it). -/
def evalActiveClearing (tuners : List Tuner) : List Nat → List ReserveProgram → List ReserveProgram
  | [], arr => arr
  | i :: rest, arr =>
    if (arr.getD i default).isSkip then evalActiveClearing tuners rest arr
    else
      match tunersAddFirst tuners (arr.getD i default).program with
      | some tuners2 =>
        evalActiveClearing tuners2 rest (arr.set i { arr.getD i default with isConflict := false })
      | none =>
        evalActiveClearing tuners rest (arr.set i { arr.getD i default with isConflict := true })

/-- Sweep step of the specification-variant resolver for claim C1. -/
def sweepStepClearing (tuners : List Tuner) (st : List ReserveProgram × List Nat) (e : SweepEvent) :
    List ReserveProgram × List Nat :=
  if (st.1.getD e.idx default).isSkip then st
  else
    let active2 := if e.isStart then st.2 ++ [e.idx] else st.2.filter (fun j => decide (j ≠ e.idx))
    let active3 := sortBy (fun i j => rleb (st.1.getD i default) (st.1.getD j default)) active2
    (evalActiveClearing (tuners.map Tuner.clear) active3 st.1, active3)

/-- Resolver following the words of the specification for claim C1: identical
to `createReserves` except that a candidate accepted by some tuner at an event
has its `isConflict` ensured to be `false` at that event. -/
def createReservesClearing (tuners : List Tuner) (cands : List ReserveProgram) :
    List ReserveProgram :=
  let ms := sortBy rleb cands
  let events := sortBy timeLe (buildEvents ms)
  let arr := (events.foldl (sweepStepClearing tuners) (ms, [])).1
  sortBy startLe ((events.filter (fun e => e.isStart)).map (fun e => arr.getD e.idx default))

/-- `createSearchOption`: project a rule record into the catalogue query;
`week` is always copied, every other field is copied iff it is non-null
(the source is a chain of null tests and assignments). -/
def createSearchOption (rule : RulesSchema) : SearchInterface :=
  let s0 : SearchInterface := { week := rule.week }
  let s1 := if rule.keyword = none then s0 else { s0 with keyword := rule.keyword }
  let s2 := if rule.ignoreKeyword = none then s1 else { s1 with ignoreKeyword := rule.ignoreKeyword }
  let s3 := if rule.keyCS = none then s2 else { s2 with keyCS := rule.keyCS }
  let s4 := if rule.keyRegExp = none then s3 else { s3 with keyRegExp := rule.keyRegExp }
  let s5 := if rule.title = none then s4 else { s4 with title := rule.title }
  let s6 := if rule.description = none then s5 else { s5 with description := rule.description }
  let s7 := if rule.extended = none then s6 else { s6 with extended := rule.extended }
  let s8 := if rule.GR = none then s7 else { s7 with GR := rule.GR }
  let s9 := if rule.BS = none then s8 else { s8 with BS := rule.BS }
  let s10 := if rule.CS = none then s9 else { s9 with CS := rule.CS }
  let s11 := if rule.SKY = none then s10 else { s10 with SKY := rule.SKY }
  let s12 := if rule.station = none then s11 else { s11 with station := rule.station }
  let s13 := if rule.genrelv1 = none then s12 else { s12 with genrelv1 := rule.genrelv1 }
  let s14 := if rule.genrelv2 = none then s13 else { s13 with genrelv2 := rule.genrelv2 }
  let s15 := if rule.startTime = none then s14 else { s14 with startTime := rule.startTime }
  let s16 := if rule.timeRange = none then s15 else { s15 with timeRange := rule.timeRange }
  let s17 := if rule.isFree = none then s16 else { s16 with isFree := rule.isFree }
  let s18 := if rule.durationMin = none then s17 else { s17 with durationMin := rule.durationMin }
  if rule.durationMax = none then s18 else { s18 with durationMax := rule.durationMax }

/-- `createOption`: project a rule record into the per-rule output option;
`enable` always, `directory` and `recordedFormat` iff non-null. -/
def createOption (rule : RulesSchema) : OptionInterface :=
  let o0 : OptionInterface := { enable := rule.enable }
  let o1 := if rule.directory = none then o0 else { o0 with directory := rule.directory }
  if rule.recordedFormat = none then o1 else { o1 with recordedFormat := rule.recordedFormat }

/-- `createEncodeOption`: `none` iff `rule.delTs` is null; otherwise carries
`delTs` plus the three optional (mode, directory) pairs copied iff non-null. -/
def createEncodeOption (rule : RulesSchema) : Option EncodeInterface :=
  match rule.delTs with
  | none => none
  | some d =>
    let e0 : EncodeInterface := { delTs := d }
    let e1 := if rule.mode1 = none then e0 else { e0 with mode1 := rule.mode1 }
    let e2 := if rule.directory1 = none then e1 else { e1 with directory1 := rule.directory1 }
    let e3 := if rule.mode2 = none then e2 else { e2 with mode2 := rule.mode2 }
    let e4 := if rule.directory2 = none then e3 else { e3 with directory2 := rule.directory2 }
    let e5 := if rule.mode3 = none then e4 else { e4 with mode3 := rule.mode3 }
    some (if rule.directory3 = none then e5 else { e5 with directory3 := rule.directory3 })

/-- The error surface of the manager: each constructor corresponds to one of
the thrown error messages of the source; `dbFailed` is an exception from a
collaborator propagated out of the operation. -/
inductive ReserveErr
| running
| manualRunning
| addFailed
| notFound
| conflictErr
| dbFailed
deriving DecidableEq

/-- Process-wide planner state: the single-writer flag, the reservation list,
the tuner array, and the log of persisted snapshots (newest first), which
models `writeReservesFile`. -/
structure ManagerState where
  isRunning : Bool := false
  reserves : List ReserveProgram := []
  tuners : List Tuner := []
  saved : List (List ReserveProgram) := []
deriving DecidableEq

/-- `writeReservesFile`: persist the current reservation list. -/
def writeReservesFile (st : ManagerState) : ManagerState :=
  { st with saved := st.reserves :: st.saved }

/-- External `ProgramsDB` capability; `none` models a thrown exception.
`findId` is only ever called with `isAddBaseOption = true` in the source, so
the flag is dropped. -/
structure Catalogue where
  findId : Nat → Option (List Program)
  findRule : SearchInterface → Option (List Program)

/-- External `RulesDB` capability; `none` models a thrown exception. -/
structure RuleStore where
  findAll : Option (List RulesSchema)
  findId : Nat → Option (List RulesSchema)

/-- `setTuners`: replace the tuner array (no guard, no re-plan). -/
def setTuners (st : ManagerState) (ts : List Tuner) : ManagerState :=
  { st with tuners := ts }

/-- `getReservesAll`: the whole list, or `slice(offset, limit + offset)`. -/
def getReservesAll (st : ManagerState) (limit : Option Nat) (offset : Nat) : List ReserveProgram :=
  match limit with
  | none => st.reserves
  | some lim => (st.reserves.drop offset).take lim

/-- Output item of `getReservesAllId`. -/
structure ReserveAllItem where
  programId : Nat
  ruleId : Option Nat := none
deriving DecidableEq

/-- Output of `getReservesAllId`: the tri-partition of the reservation list. -/
structure ReserveAllId where
  reserves : List ReserveAllItem
  conflicts : List ReserveAllItem
  skips : List ReserveAllItem
deriving DecidableEq

/-- `getReservesAllId`: walk the list and push each reservation's id (plus its
`ruleId` when present) onto `conflicts` if `isConflict`, else onto `skips` if
`isSkip`, else onto `reserves`. -/
def getReservesAllId : List ReserveProgram → ReserveAllId
  | [] => { reserves := [], conflicts := [], skips := [] }
  | r :: rest =>
    let tail := getReservesAllId rest
    let item : ReserveAllItem := { programId := r.program.id, ruleId := r.ruleId }
    if r.isConflict then { tail with conflicts := item :: tail.conflicts }
    else if r.isSkip then { tail with skips := item :: tail.skips }
    else { tail with reserves := item :: tail.reserves }

/-- Result record of the filtered readers. -/
structure ReserveLimit where
  reserves : List ReserveProgram
  total : Nat
deriving DecidableEq

/-- The `slice(offset, limit + offset)` applied by the filtered readers. -/
def sliceOpt (l : List ReserveProgram) (limit : Option Nat) (offset : Nat) : List ReserveProgram :=
  match limit with
  | none => l
  | some lim => (l.drop offset).take lim

/-- `getReserves`: reservations that are neither conflict nor skip. -/
def getReserves (st : ManagerState) (limit : Option Nat) (offset : Nat) : ReserveLimit :=
  let f := st.reserves.filter (fun r => !r.isConflict && !r.isSkip)
  { reserves := sliceOpt f limit offset, total := f.length }

/-- `getConflicts`: reservations with `isConflict`. -/
def getConflicts (st : ManagerState) (limit : Option Nat) (offset : Nat) : ReserveLimit :=
  let f := st.reserves.filter (fun r => r.isConflict)
  { reserves := sliceOpt f limit offset, total := f.length }

/-- `getSkips`: reservations with `isSkip`. -/
def getSkips (st : ManagerState) (limit : Option Nat) (offset : Nat) : ReserveLimit :=
  let f := st.reserves.filter (fun r => r.isSkip)
  { reserves := sliceOpt f limit offset, total := f.length }

/-- Loop body of `cancel`: delete the first manual reservation with the id,
or set `isSkip := true` and `isConflict := false` on the first rule
reservation with the id.  The boolean reports whether a match was found (and
hence a write plus a deferred `updateAll` happen). -/
def cancelList : List ReserveProgram → Nat → List ReserveProgram × Bool
  | [], _ => ([], false)
  | r :: rest, id =>
    if r.program.id = id then
      if r.isManual then (rest, true)
      else ({ r with isSkip := true, isConflict := false } :: rest, true)
    else
      let p := cancelList rest id
      (r :: p.1, p.2)

/-- `cancel`: guarded by `isRunning`; on a match the list is modified and
persisted.  The source then fires `updateAll()` without awaiting it; that
re-plan is modelled as a separate operation. -/
def cancel (st : ManagerState) (id : Nat) : ManagerState × Option ReserveErr :=
  if st.isRunning then (st, some ReserveErr.running)
  else
    let p := cancelList st.reserves id
    let st2 := { st with reserves := p.1 }
    let st3 := if p.2 then writeReservesFile st2 else st2
    ({ st3 with isRunning := false }, none)

/-- Loop body of `removeSkip`: clear `isSkip` on the first reservation with
the id; also report whether a match was found and the matched reservation's
`ruleId` (used to fire `updateRule`). -/
def removeSkipList : List ReserveProgram → Nat → List ReserveProgram × Bool × Option Nat
  | [], _ => ([], false, none)
  | r :: rest, id =>
    if r.program.id = id then ({ r with isSkip := false } :: rest, true, r.ruleId)
    else
      let p := removeSkipList rest id
      (r :: p.1, p.2.1, p.2.2)

/-- `removeSkip`: guarded by `isRunning`.  Note that the source clears the
flag only inside the found-a-match branch: when no reservation has the id the
function returns with `isRunning` still `true`.  The deferred
`updateRule(ruleId)` trigger is returned, modelled as a separate operation. -/
def removeSkip (st : ManagerState) (id : Nat) : ManagerState × Option ReserveErr × Option Nat :=
  if st.isRunning then (st, some ReserveErr.running, none)
  else
    let p := removeSkipList st.reserves id
    if p.2.1 then ({ st with reserves := p.1, isRunning := false }, none, p.2.2)
    else ({ st with isRunning := true }, none, none)

/-- The encode-option validity test of `addReserve`: `checkEncode` models
`CheckRule#checkEncodeOption` (CheckRule.ts is not under src). -/
def encodeBad (checkEncode : EncodeInterface → Bool) : Option EncodeInterface → Bool
  | none => false
  | some e => !checkEncode e

/-- The new manual reservation record built by `addReserve`. -/
def newManualReserve (p : Program) (now : Nat) (encode : Option EncodeInterface) :
    ReserveProgram :=
  { program := p, isManual := true, manualId := some now, isSkip := false,
    isConflict := false, encodeOption := encode }

/-- The candidate set `addReserve` hands to the resolver: the existing
reservations that are neither conflict nor skip and whose interval meets the
new program's (`startAt <= endAt && endAt >= startAt` in the source), plus
the new manual entry. -/
def addCandidates (st : ManagerState) (p : Program) (now : Nat)
    (encode : Option EncodeInterface) : List ReserveProgram :=
  (st.reserves.filter (fun r =>
    !r.isConflict && !r.isSkip && decide (r.program.startAt ≤ p.endAt) &&
      decide (p.startAt ≤ r.program.endAt))) ++ [newManualReserve p now encode]

/-- `addReserve` (the manual reservation entry point).  `now` is the wall
clock used for `manualId`. -/
def addReserve (cat : Catalogue) (checkEncode : EncodeInterface → Bool) (now : Nat)
    (st : ManagerState) (programId : Nat) (encode : Option EncodeInterface) :
    ManagerState × Option ReserveErr :=
  if st.isRunning then (st, some ReserveErr.manualRunning)
  else if encodeBad checkEncode encode then (st, some ReserveErr.addFailed)
  else
    let st1 := { st with isRunning := true }
    match cat.findId programId with
    | none => ({ st1 with isRunning := false }, some ReserveErr.dbFailed)
    | some [] => ({ st1 with isRunning := false }, some ReserveErr.notFound)
    | some (p :: _) =>
      if st1.reserves.any (fun r => r.program.id = programId) then
        ({ st1 with isRunning := false }, some ReserveErr.addFailed)
      else
        let newReserves := createReserves st1.tuners (addCandidates st1 p now encode)
        if newReserves.any (fun r => r.isConflict) then
          ({ st1 with isRunning := false }, some ReserveErr.conflictErr)
        else
          let st2 := { st1 with
            reserves := sortBy startLe (st1.reserves ++ [newManualReserve p now encode]) }
          ({ writeReservesFile st2 with isRunning := false }, none)

/-- Manual-reservation refresh loop of `updateAll`: re-fetch each manual
reservation's program from the catalogue; a reservation whose lookup throws
or returns empty is dropped (logged and skipped in the source). -/
def manualMatches (cat : Catalogue) : List ReserveProgram → List ReserveProgram
  | [] => []
  | r :: rest =>
    if r.isManual && r.manualId.isSome then
      match cat.findId r.program.id with
      | none => manualMatches cat rest
      | some [] => manualMatches cat rest
      | some (p :: _) => { r with program := p } :: manualMatches cat rest
    else manualMatches cat rest

/-- The skip index of `updateAll` and `updateRule`: ids of reservations with
`isSkip = true`. -/
def skipIds (rs : List ReserveProgram) : List Nat :=
  (rs.filter (fun r => r.isSkip)).map (fun r => r.program.id)

/-- Rule-match candidate construction of `updateAll`: for each enabled rule,
fetch the matching programs (a throwing lookup is logged and the rule
skipped) and build fresh rule reservations, re-applying skips by program id. -/
def ruleMatches (cat : Catalogue) (skips : List Nat) : List RulesSchema → List ReserveProgram
  | [] => []
  | rule :: rest =>
    if rule.enable then
      match cat.findRule (createSearchOption rule) with
      | none => ruleMatches cat skips rest
      | some programs =>
        programs.map (fun p =>
          { program := p, ruleId := some rule.id, ruleOption := some (createOption rule),
            isSkip := skips.contains p.id, isManual := false, manualId := none,
            isConflict := false, encodeOption := createEncodeOption rule })
          ++ ruleMatches cat skips rest
    else ruleMatches cat skips rest

/-- `updateAll`: full re-plan.  A failing `rulesDB.findAll` is not caught in
the source, so on that path the error propagates with `isRunning` left
`true`. -/
def updateAll (cat : Catalogue) (rstore : RuleStore) (st : ManagerState) :
    ManagerState × Option ReserveErr :=
  if st.isRunning then (st, some ReserveErr.running)
  else
    let st1 := { st with isRunning := true }
    let ms := manualMatches cat st.reserves
    match rstore.findAll with
    | none => (st1, some ReserveErr.dbFailed)
    | some rules =>
      let cands := ms ++ ruleMatches cat (skipIds st.reserves) rules
      let st2 := writeReservesFile { st1 with reserves := createReserves st1.tuners cands }
      ({ st2 with isRunning := false }, none)

/-- Commit phase of `updateRule`: keep every reservation whose `ruleId`
differs from the target (with `isConflict` cleared), append the fresh matches
of the rule when it exists and is enabled, re-plan, persist. -/
def updateRuleCommit (st1 : ManagerState) (ruleId : Nat) (ruleOpt : Option RulesSchema)
    (programs : List Program) : ManagerState × Option ReserveErr :=
  let skips := skipIds st1.reserves
  let keep := (st1.reserves.filter (fun r => decide (r.ruleId ≠ some ruleId))).map
    (fun r => { r with isConflict := false })
  let fresh :=
    match ruleOpt with
    | none => []
    | some rule =>
      programs.map (fun p =>
        { program := p, ruleId := some ruleId, ruleOption := some (createOption rule),
          isSkip := skips.contains p.id, isManual := false, manualId := none,
          isConflict := false, encodeOption := createEncodeOption rule })
  let st2 := writeReservesFile { st1 with reserves := createReserves st1.tuners (keep ++ fresh) }
  ({ st2 with isRunning := false }, none)

/-- `updateRule`: re-plan the reservations of one rule.  A throwing
`rulesDB.findId` or `programDB.findRule` clears the flag (the source's
`finalize()`) and propagates the error. -/
def updateRule (cat : Catalogue) (rstore : RuleStore) (st : ManagerState) (ruleId : Nat) :
    ManagerState × Option ReserveErr :=
  if st.isRunning then (st, some ReserveErr.running)
  else
    let st1 := { st with isRunning := true }
    match rstore.findId ruleId with
    | none => ({ st1 with isRunning := false }, some ReserveErr.dbFailed)
    | some result =>
      let ruleOpt : Option RulesSchema :=
        match result with
        | [] => none
        | r :: _ => if r.enable then some r else none
      match ruleOpt with
      | none => updateRuleCommit st1 ruleId none []
      | some rule =>
        match cat.findRule (createSearchOption rule) with
        | none => ({ st1 with isRunning := false }, some ReserveErr.dbFailed)
        | some programs => updateRuleCommit st1 ruleId (some rule) programs

/-- `clean`: drop reservations whose `endAt` has passed; no guard, no
persist. -/
def clean (st : ManagerState) (now : Nat) : ManagerState :=
  { st with reserves := st.reserves.filter (fun r => !decide (r.program.endAt < now)) }

/-- Relation between a candidate as it enters the sweep of `createReserves`
and the corresponding array entry afterwards: every field except `isConflict`
is unchanged, a conflict mark once set is never cleared, and a mark can only
appear on a candidate whose `isSkip` is false. -/
def OnlyMarks (a b : ReserveProgram) : Prop :=
  b.program = a.program ∧ b.ruleId = a.ruleId ∧ b.ruleOption = a.ruleOption ∧
  b.isManual = a.isManual ∧ b.manualId = a.manualId ∧ b.isSkip = a.isSkip ∧
  b.encodeOption = a.encodeOption ∧
  (a.isConflict = true → b.isConflict = true) ∧
  (b.isConflict = true → a.isConflict = true ∨ a.isSkip = false)

/-- Invariant of claim C7: no reservation is both skipped and conflicted. -/
def NoSkipConflict (rs : List ReserveProgram) : Prop :=
  ∀ r ∈ rs, ¬(r.isSkip = true ∧ r.isConflict = true)

/-- Invariant of claim C8: the list is sorted ascending by `startAt`. -/
def SortedByStart (rs : List ReserveProgram) : Prop :=
  rs.Pairwise (fun a b => a.program.startAt ≤ b.program.startAt)

/-- Sample tuner accepting only GR, used by concrete witnesses. -/
def tunerGR : Tuner := { types := [ChannelType.GR] }

/-- Sample GR program constructor, used by concrete witnesses. -/
def progOf (i s e : Nat) : Program :=
  { id := i, startAt := s, endAt := e, channelType := ChannelType.GR }

/-- Sample manual reservation constructor, used by concrete witnesses. -/
def manualRes (i s e mid : Nat) : ReserveProgram :=
  { program := progOf i s e, isManual := true, manualId := some mid }

/-- Sample rule reservation constructor, used by concrete witnesses. -/
def ruleRes (i s e rid : Nat) : ReserveProgram :=
  { program := progOf i s e, ruleId := some rid }

/-- Sample state for the C2 counterexample: one rule reservation on the only
GR tuner. -/
def stC2 : ManagerState := { reserves := [ruleRes 1 100 300 5], tuners := [tunerGR] }

/-- Sample catalogue for the C2 counterexample: program 2 occupies
150..250. -/
def catC2 : Catalogue :=
  { findId := fun pid => if pid = 2 then some [progOf 2 150 250] else some [],
    findRule := fun _ => some [] }

/-- Catalogue whose lookups all succeed with the empty list. -/
def catEmpty : Catalogue := { findId := fun _ => some [], findRule := fun _ => some [] }

/-- Rule store whose lookups all succeed with the empty list. -/
def rstoreEmpty : RuleStore := { findAll := some [], findId := fun _ => some [] }

/-- Rule store whose `findAll` throws, used by the C3 theorem. -/
def rstoreFailAll : RuleStore := { findAll := none, findId := fun _ => some [] }

/-- Sample busy state used by the C4 counterexample and witness: the
single-writer flag is set and one reservation has already ended. -/
def stBusy : ManagerState := { isRunning := true, reserves := [ruleRes 1 100 300 5] }

/-- Sample enabled rule (id 5) used by the C6 witness. -/
def ruleC6 : RulesSchema := { id := 5, enable := true, week := 127 }

/-- Sample rule store for the C6 witness. -/
def rstoreC6 : RuleStore := { findAll := some [ruleC6], findId := fun _ => some [ruleC6] }

/-- Sample catalogue for the C6 witness: every rule query returns program 1. -/
def catC6 : Catalogue :=
  { findId := fun _ => some [], findRule := fun _ => some [progOf 1 100 200] }

/-- Sample state for the C6 witness: program 1 is reserved by rule 5 and
skipped. -/
def stC6 : ManagerState :=
  { reserves := [{ ruleRes 1 100 200 5 with isSkip := true }], tuners := [tunerGR] }

/-- Inserting into a list is a permutation of consing. -/
theorem insertSorted_perm (le : α → α → Bool) (x : α) (l : List α) :
    (insertSorted le x l).Perm (x :: l) := by
  induction l with
  | nil => simp [insertSorted]
  | cons y ys ih =>
    rw [insertSorted]
    by_cases h : le x y = true
    · simp [h]
    · simp only [h, if_false, Bool.false_eq_true]
      exact (ih.cons y).trans (List.Perm.swap x y ys)

/-- `sortBy` permutes its input. -/
theorem sortBy_perm (le : α → α → Bool) (l : List α) : (sortBy le l).Perm l := by
  induction l with
  | nil => simp [sortBy]
  | cons x xs ih => exact (insertSorted_perm le x (sortBy le xs)).trans (ih.cons x)

/-- Membership is preserved by `sortBy`. -/
theorem mem_sortBy {le : α → α → Bool} {l : List α} {a : α} : a ∈ sortBy le l ↔ a ∈ l :=
  (sortBy_perm le l).mem_iff

/-- Insertion preserves sortedness for a total transitive boolean order. -/
theorem pairwise_insertSorted (le : α → α → Bool)
    (htot : ∀ a b, le a b = false → le b a = true)
    (htr : ∀ a b c, le a b = true → le b c = true → le a c = true)
    (x : α) (l : List α) (h : l.Pairwise (fun a b => le a b = true)) :
    (insertSorted le x l).Pairwise (fun a b => le a b = true) := by
  induction l with
  | nil => simp [insertSorted]
  | cons y ys ih =>
    rw [List.pairwise_cons] at h
    obtain ⟨hy, hys⟩ := h
    rw [insertSorted]
    by_cases hxy : le x y = true
    · simp only [hxy, if_true]
      refine List.Pairwise.cons ?_ (List.Pairwise.cons hy hys)
      intro b hb
      rcases List.mem_cons.mp hb with rfl | hb2
      · exact hxy
      · exact htr x y b hxy (hy b hb2)
    · simp only [hxy, if_false, Bool.false_eq_true]
      refine List.Pairwise.cons ?_ (ih hys)
      intro b hb
      rcases List.mem_cons.mp ((insertSorted_perm le x ys).mem_iff.mp hb) with rfl | hb2
      · exact htot _ _ (Bool.eq_false_iff.mpr hxy)
      · exact hy b hb2

/-- `sortBy` sorts for a total transitive boolean order. -/
theorem pairwise_sortBy (le : α → α → Bool)
    (htot : ∀ a b, le a b = false → le b a = true)
    (htr : ∀ a b c, le a b = true → le b c = true → le a c = true)
    (l : List α) : (sortBy le l).Pairwise (fun a b => le a b = true) := by
  induction l with
  | nil => simp [sortBy]
  | cons x xs ih => exact pairwise_insertSorted le htot htr x (sortBy le xs) ih

/-- The authority order is total. -/
theorem rleb_total (a b : ReserveProgram) (h : rleb a b = false) : rleb b a = true := by
  unfold rleb sortReserveProgram at *
  cases ha : a.isManual <;> cases hb : b.isManual <;> simp [ha, hb] at * <;> omega

/-- The authority order is reflexive. -/
theorem rleb_refl (a : ReserveProgram) : rleb a a = true := by
  unfold rleb sortReserveProgram
  cases ha : a.isManual <;> simp [ha]

/-- The authority order is transitive. -/
theorem rleb_trans (a b c : ReserveProgram) (h1 : rleb a b = true) (h2 : rleb b c = true) :
    rleb a c = true := by
  unfold rleb sortReserveProgram at *
  cases ha : a.isManual <;> cases hb : b.isManual <;> cases hc : c.isManual <;>
    simp [ha, hb, hc] at * <;> omega

/-- The `startAt` order is total. -/
theorem startLe_total (a b : ReserveProgram) (h : startLe a b = false) : startLe b a = true := by
  simp [startLe] at *
  omega

/-- The `startAt` order is transitive. -/
theorem startLe_trans (a b c : ReserveProgram) (h1 : startLe a b = true)
    (h2 : startLe b c = true) : startLe a c = true := by
  simp [startLe] at *
  omega

/-- The event-time order is total. -/
theorem timeLe_total (a b : SweepEvent) (h : timeLe a b = false) : timeLe b a = true := by
  simp [timeLe] at *
  omega

/-- The event-time order is transitive. -/
theorem timeLe_trans (a b c : SweepEvent) (h1 : timeLe a b = true) (h2 : timeLe b c = true) :
    timeLe a c = true := by
  simp [timeLe] at *
  omega

/-- `getD` after `set` at the written index. -/
theorem getD_set_self (l : List α) (i : Nat) (v d : α) (h : i < l.length) :
    (l.set i v).getD i d = v := by
  induction l generalizing i with
  | nil => simp at h
  | cons x xs ih =>
    cases i with
    | zero => rfl
    | succ n => exact ih n (by simpa using h)

/-- `getD` after `set` at a different index. -/
theorem getD_set_ne (l : List α) (i j : Nat) (v d : α) (h : i ≠ j) :
    (l.set i v).getD j d = l.getD j d := by
  induction l generalizing i j with
  | nil => rfl
  | cons x xs ih =>
    cases i with
    | zero =>
      cases j with
      | zero => exact absurd rfl h
      | succ m => rfl
    | succ n =>
      cases j with
      | zero => rfl
      | succ m => exact ih n m (fun hh => h (by rw [hh]))

/-- `set` beyond the length is the identity. -/
theorem set_of_le (l : List α) (i : Nat) (v : α) (h : l.length ≤ i) : l.set i v = l := by
  induction l generalizing i with
  | nil => rfl
  | cons x xs ih =>
    cases i with
    | zero => simp at h
    | succ n => simp [List.set, ih n (by simpa using h)]

/-- In-bounds `getD` is a member. -/
theorem getD_mem (l : List α) (i : Nat) (d : α) (h : i < l.length) : l.getD i d ∈ l := by
  induction l generalizing i with
  | nil => simp at h
  | cons x xs ih =>
    cases i with
    | zero => exact List.mem_cons_self x xs
    | succ n => exact List.mem_cons_of_mem x (ih n (by simpa using h))

/-- In-bounds `getD` agrees with `get`. -/
theorem getD_eq_get (l : List α) (i : Nat) (d : α) (h : i < l.length) :
    l.getD i d = l.get ⟨i, h⟩ := by
  induction l generalizing i with
  | nil => simp at h
  | cons x xs ih =>
    cases i with
    | zero => rfl
    | succ n => exact ih n (by simpa using h)

/-- `OnlyMarks` is reflexive. -/
theorem onlyMarks_refl (a : ReserveProgram) : OnlyMarks a a :=
  ⟨rfl, rfl, rfl, rfl, rfl, rfl, rfl, fun h => h, fun h => Or.inl h⟩

/-- `OnlyMarks` is transitive. -/
theorem onlyMarks_trans {a b c : ReserveProgram} (h1 : OnlyMarks a b) (h2 : OnlyMarks b c) :
    OnlyMarks a c := by
  obtain ⟨p1, r1, o1, m1, i1, s1, e1, c1, d1⟩ := h1
  obtain ⟨p2, r2, o2, m2, i2, s2, e2, c2, d2⟩ := h2
  refine ⟨p2.trans p1, r2.trans r1, o2.trans o1, m2.trans m1, i2.trans i1, s2.trans s1,
    e2.trans e1, fun h => c2 (c1 h), fun h => ?_⟩
  rcases d2 h with h2a | h2a
  · exact d1 h2a
  · right
    rw [s1] at h2a
    exact h2a

/-- Setting a conflict mark on a non-skip entry relates the array entries by
`OnlyMarks` at every index. -/
theorem onlyMarks_getD_set (arr : List ReserveProgram) (j : Nat)
    (h : (arr.getD j default).isSkip = false) (i : Nat) :
    OnlyMarks (arr.getD i default)
      ((arr.set j { arr.getD j default with isConflict := true }).getD i default) := by
  by_cases hij : i = j
  · subst hij
    by_cases hlen : i < arr.length
    · rw [getD_set_self _ _ _ _ hlen]
      exact ⟨rfl, rfl, rfl, rfl, rfl, rfl, rfl, fun _ => rfl, fun _ => Or.inr h⟩
    · rw [set_of_le _ _ _ (Nat.le_of_not_lt hlen)]
      exact onlyMarks_refl _
  · rw [getD_set_ne _ _ _ _ _ (fun hh => hij hh.symm)]
    exact onlyMarks_refl _

/-- The evaluation loop of one sweep event only sets conflict marks: the
array keeps its length and every entry is `OnlyMarks`-related to what it
was. -/
theorem evalActive_onlyMarks (act : List Nat) :
    ∀ (tuners : List Tuner) (arr : List ReserveProgram),
      (evalActive tuners act arr).length = arr.length ∧
      ∀ i, OnlyMarks (arr.getD i default) ((evalActive tuners act arr).getD i default) := by
  induction act with
  | nil => exact fun tuners arr => ⟨rfl, fun i => onlyMarks_refl _⟩
  | cons j rest ih =>
    intro tuners arr
    rw [evalActive]
    split
    · exact ih tuners arr
    · next hskip =>
      split
      · exact ih _ arr
      · obtain ⟨hl, hm⟩ := ih tuners (arr.set j { arr.getD j default with isConflict := true })
        refine ⟨hl.trans (List.length_set arr j _), fun i => ?_⟩
        exact onlyMarks_trans (onlyMarks_getD_set arr j (Bool.not_eq_true _ ▸ hskip) i) (hm i)

/-- One sweep step only sets conflict marks. -/
theorem sweepStep_onlyMarks (tuners : List Tuner) (st : List ReserveProgram × List Nat)
    (e : SweepEvent) :
    (sweepStep tuners st e).1.length = st.1.length ∧
    ∀ i, OnlyMarks (st.1.getD i default) ((sweepStep tuners st e).1.getD i default) := by
  unfold sweepStep
  split
  · exact ⟨rfl, fun i => onlyMarks_refl _⟩
  · exact evalActive_onlyMarks _ _ _

/-- The whole sweep only sets conflict marks. -/
theorem sweepFold_onlyMarks (tuners : List Tuner) (events : List SweepEvent) :
    ∀ (arr : List ReserveProgram) (active : List Nat),
      ((events.foldl (sweepStep tuners) (arr, active)).1.length = arr.length) ∧
      ∀ i, OnlyMarks (arr.getD i default)
        ((events.foldl (sweepStep tuners) (arr, active)).1.getD i default) := by
  induction events with
  | nil => exact fun arr active => ⟨rfl, fun i => onlyMarks_refl _⟩
  | cons e es ih =>
    intro arr active
    rw [List.foldl_cons]
    obtain ⟨hl1, hm1⟩ := sweepStep_onlyMarks tuners (arr, active) e
    obtain ⟨hl2, hm2⟩ := ih (sweepStep tuners (arr, active) e).1 (sweepStep tuners (arr, active) e).2
    constructor
    · rw [← hl1]
      exact hl2
    · intro i
      exact onlyMarks_trans (hm1 i) (hm2 i)

/-- Indices produced by `withIdx` are at least the start counter. -/
theorem withIdx_ge (l : List α) : ∀ (n : Nat) (jm : Nat × α), jm ∈ withIdx n l → n ≤ jm.1 := by
  induction l with
  | nil => intro n jm h; simp [withIdx] at h
  | cons x xs ih =>
    intro n jm h
    rw [withIdx] at h
    rcases List.mem_cons.mp h with rfl | h2
    · exact Nat.le_refl n
    · exact Nat.le_of_succ_le (ih (n + 1) jm h2)

/-- Every pair of `withIdx` indexes an element of the list. -/
theorem withIdx_mem [Inhabited α] (l : List α) :
    ∀ (n : Nat) (jm : Nat × α), jm ∈ withIdx n l →
      n ≤ jm.1 ∧ jm.1 - n < l.length ∧ l.getD (jm.1 - n) default = jm.2 := by
  induction l with
  | nil => intro n jm h; simp [withIdx] at h
  | cons x xs ih =>
    intro n jm h
    rw [withIdx] at h
    rcases List.mem_cons.mp h with rfl | h2
    · exact ⟨Nat.le_refl n, by simp, by simp⟩
    · obtain ⟨h1, h2a, h3⟩ := ih (n + 1) jm h2
      have hk : jm.1 - n = (jm.1 - (n + 1)) + 1 := by omega
      refine ⟨by omega, by simp; omega, ?_⟩
      rw [hk]
      exact h3

/-- The indices of `withIdx` are strictly increasing. -/
theorem withIdx_pairwise (l : List α) :
    ∀ n, List.Pairwise (fun a b => a.1 < b.1) (withIdx n l) := by
  induction l with
  | nil => intro n; simp [withIdx]
  | cons x xs ih =>
    intro n
    rw [withIdx]
    refine List.Pairwise.cons ?_ (ih (n + 1))
    intro jm hjm
    exact Nat.lt_of_lt_of_le (Nat.lt_succ_self n) (withIdx_ge xs (n + 1) jm hjm)

/-- Every in-bounds index appears in `withIdx`. -/
theorem withIdx_get [Inhabited α] (l : List α) :
    ∀ (n i : Nat), i < l.length → (n + i, l.getD i default) ∈ withIdx n l := by
  induction l with
  | nil => intro n i h; simp at h
  | cons x xs ih =>
    intro n i h
    rw [withIdx]
    cases i with
    | zero => simp [List.getD]
    | succ k =>
      refine List.mem_cons_of_mem _ ?_
      have : n + (k + 1) = (n + 1) + k := by omega
      rw [this]
      exact ih (n + 1) k (by simpa using h)

/-- Every element appears in `withIdx` under some index. -/
theorem withIdx_cover (l : List α) :
    ∀ (n : Nat) (m : α), m ∈ l → ∃ j, (j, m) ∈ withIdx n l := by
  induction l with
  | nil => intro n m h; simp at h
  | cons x xs ih =>
    intro n m h
    rw [withIdx]
    rcases List.mem_cons.mp h with rfl | h2
    · exact ⟨n, List.mem_cons_self _ _⟩
    · obtain ⟨j, hj⟩ := ih (n + 1) m h2
      exact ⟨j, List.mem_cons_of_mem _ hj⟩

/-- Every sweep event's index comes from one of the indexed candidates. -/
theorem buildGo_src :
    ∀ (l : List (Nat × ReserveProgram)) (seen : List Nat) (e : SweepEvent),
      e ∈ buildEventsGo l seen → ∃ jm ∈ l, e.idx = jm.1 := by
  intro l
  induction l with
  | nil => intro seen e h; simp [buildEventsGo] at h
  | cons km rest ih =>
    intro seen e h
    obtain ⟨k, m⟩ := km
    rw [buildEventsGo] at h
    by_cases hseen : m.program.id ∈ seen
    · simp only [hseen, if_true] at h
      obtain ⟨jm, hjm, he⟩ := ih seen e h
      exact ⟨jm, List.mem_cons_of_mem _ hjm, he⟩
    · simp only [hseen, if_false] at h
      rcases List.mem_cons.mp h with rfl | h2
      · exact ⟨(k, m), List.mem_cons_self _ _, rfl⟩
      · rcases List.mem_cons.mp h2 with rfl | h3
        · exact ⟨(k, m), List.mem_cons_self _ _, rfl⟩
        · obtain ⟨jm, hjm, he⟩ := ih _ e h3
          exact ⟨jm, List.mem_cons_of_mem _ hjm, he⟩

/-- Every candidate whose id is not yet seen is covered by a start event
carrying the same program id. -/
theorem buildGo_cover :
    ∀ (l : List (Nat × ReserveProgram)) (seen : List Nat) (jm : Nat × ReserveProgram),
      jm ∈ l → jm.2.program.id ∉ seen →
      ∃ e ∈ buildEventsGo l seen, e.isStart = true ∧
        ∃ jm2 ∈ l, e.idx = jm2.1 ∧ jm2.2.program.id = jm.2.program.id := by
  intro l
  induction l with
  | nil => intro seen jm h; simp at h
  | cons km rest ih =>
    intro seen jm hjm hns
    obtain ⟨k, m⟩ := km
    rw [buildEventsGo]
    by_cases hseen : m.program.id ∈ seen
    · simp only [hseen, if_true]
      rcases List.mem_cons.mp hjm with rfl | h2
      · exact absurd hseen hns
      · obtain ⟨e, he, hs, jm2, hjm2, hidx, hid⟩ := ih seen jm h2 hns
        exact ⟨e, he, hs, jm2, List.mem_cons_of_mem _ hjm2, hidx, hid⟩
    · simp only [hseen, if_false]
      by_cases hid : jm.2.program.id = m.program.id
      · refine ⟨{ time := m.program.startAt, isStart := true, idx := k }, List.mem_cons_self _ _,
          rfl, (k, m), List.mem_cons_self _ _, rfl, hid.symm⟩
      · have h2 : jm ∈ rest := by
          rcases List.mem_cons.mp hjm with rfl | h2
          · exact absurd rfl hid
          · exact h2
        have hns2 : jm.2.program.id ∉ m.program.id :: seen := by
          intro hc
          rcases List.mem_cons.mp hc with hc1 | hc2
          · exact hid hc1
          · exact hns hc2
        obtain ⟨e, he, hs, jm2, hjm2, hidx, hid2⟩ := ih _ jm h2 hns2
        exact ⟨e, List.mem_cons_of_mem _ (List.mem_cons_of_mem _ he), hs, jm2,
          List.mem_cons_of_mem _ hjm2, hidx, hid2⟩

/-- A start event marks the first candidate (in index order) with its program
id: its id is unseen and no earlier candidate shares it. -/
theorem buildGo_first :
    ∀ (l : List (Nat × ReserveProgram)) (seen : List Nat),
      List.Pairwise (fun a b => a.1 < b.1) l →
      ∀ e ∈ buildEventsGo l seen, e.isStart = true →
        ∃ jm ∈ l, e.idx = jm.1 ∧ jm.2.program.id ∉ seen ∧
          ∀ jm2 ∈ l, jm2.1 < jm.1 → jm2.2.program.id ≠ jm.2.program.id := by
  intro l
  induction l with
  | nil => intro seen _ e h; simp [buildEventsGo] at h
  | cons km rest ih =>
    intro seen hpw e he hs
    obtain ⟨k, m⟩ := km
    rw [List.pairwise_cons] at hpw
    obtain ⟨hlt, hpw2⟩ := hpw
    rw [buildEventsGo] at he
    by_cases hseen : m.program.id ∈ seen
    · simp only [hseen, if_true] at he
      obtain ⟨jm, hjm, hidx, hns, hfirst⟩ := ih seen hpw2 e he hs
      refine ⟨jm, List.mem_cons_of_mem _ hjm, hidx, hns, ?_⟩
      intro jm2 hjm2 hlt2
      rcases List.mem_cons.mp hjm2 with rfl | h2
      · intro hc
        exact hns (hc ▸ hseen)
      · exact hfirst jm2 h2 hlt2
    · simp only [hseen, if_false] at he
      rcases List.mem_cons.mp he with rfl | he2
      · refine ⟨(k, m), List.mem_cons_self _ _, rfl, hseen, ?_⟩
        intro jm2 hjm2 hlt2
        rcases List.mem_cons.mp hjm2 with rfl | h2
        · omega
        · exact absurd hlt2 (Nat.not_lt_of_le (Nat.le_of_lt (hlt jm2 h2)))
      · rcases List.mem_cons.mp he2 with rfl | he3
        · simp at hs
        · obtain ⟨jm, hjm, hidx, hns, hfirst⟩ := ih _ hpw2 e he3 hs
          refine ⟨jm, List.mem_cons_of_mem _ hjm, hidx, fun hc => hns (List.mem_cons_of_mem _ hc), ?_⟩
          intro jm2 hjm2 hlt2
          rcases List.mem_cons.mp hjm2 with rfl | h2
          · intro hc
            exact hns (hc ▸ List.mem_cons_self m.program.id seen)
          · exact hfirst jm2 h2 hlt2

/-- Two distinct start events always carry distinct program ids: the
deduplication of `createReserves` emits at most one start event per id. -/
theorem buildGo_distinct (ms : List ReserveProgram) :
    ∀ (l : List (Nat × ReserveProgram)) (seen : List Nat),
      List.Pairwise (fun a b => a.1 < b.1) l →
      (∀ jm ∈ l, ms.getD jm.1 default = jm.2) →
      List.Pairwise (fun e f => e.isStart = true → f.isStart = true →
        (ms.getD e.idx default).program.id ≠ (ms.getD f.idx default).program.id)
        (buildEventsGo l seen) := by
  intro l
  induction l with
  | nil => intro seen _ _; simp [buildEventsGo]
  | cons km rest ih =>
    intro seen hpw hms
    obtain ⟨k, m⟩ := km
    rw [List.pairwise_cons] at hpw
    obtain ⟨hlt, hpw2⟩ := hpw
    have hmsk : ms.getD k default = m := hms (k, m) (List.mem_cons_self _ _)
    have hms2 : ∀ jm ∈ rest, ms.getD jm.1 default = jm.2 :=
      fun jm hjm => hms jm (List.mem_cons_of_mem _ hjm)
    rw [buildEventsGo]
    by_cases hseen : m.program.id ∈ seen
    · simp only [hseen, if_true]
      exact ih seen hpw2 hms2
    · simp only [hseen, if_false]
      have hrest : ∀ f ∈ buildEventsGo rest (m.program.id :: seen), f.isStart = true →
          (ms.getD f.idx default).program.id ≠ m.program.id := by
        intro f hf hfs
        obtain ⟨jm, hjm, hidx, hns, _⟩ := buildGo_first rest (m.program.id :: seen) hpw2 f hf hfs
        rw [hidx, hms2 jm hjm]
        intro hc
        exact hns (hc ▸ List.mem_cons_self m.program.id seen)
      refine List.Pairwise.cons ?_ (List.Pairwise.cons ?_ (ih _ hpw2 hms2))
      · intro f hf hes hfs
        rcases List.mem_cons.mp hf with rfl | hf2
        · simp at hfs
        · rw [hmsk]
          exact fun hc => hrest f hf2 hfs hc.symm
      · intro f hf hes
        simp at hes

/-- Every output reservation of the resolver agrees with some input
candidate on all fields except possibly a newly set conflict mark. -/
theorem createReserves_mem (tuners : List Tuner) (cands : List ReserveProgram) :
    ∀ r ∈ createReserves tuners cands, ∃ m ∈ cands, OnlyMarks m r := by
  intro r hr
  simp only [createReserves] at hr
  rw [mem_sortBy] at hr
  obtain ⟨e, hefil, rfl⟩ := List.mem_map.mp hr
  have hee : e ∈ sortBy timeLe (buildEvents (sortBy rleb cands)) := (List.mem_filter.mp hefil).1
  have heb : e ∈ buildEvents (sortBy rleb cands) := mem_sortBy.mp hee
  rw [buildEvents] at heb
  obtain ⟨jm, hjm, hidx⟩ := buildGo_src _ _ _ heb
  obtain ⟨-, hlt, -⟩ := withIdx_mem (sortBy rleb cands) 0 jm hjm
  rw [Nat.sub_zero] at hlt
  have hj : e.idx < (sortBy rleb cands).length := hidx ▸ hlt
  have hmem : (sortBy rleb cands).getD e.idx default ∈ sortBy rleb cands :=
    getD_mem _ e.idx default hj
  obtain ⟨-, hOM⟩ := sweepFold_onlyMarks tuners (sortBy timeLe (buildEvents (sortBy rleb cands)))
    (sortBy rleb cands) []
  exact ⟨(sortBy rleb cands).getD e.idx default, mem_sortBy.mp hmem, hOM e.idx⟩

/-- The resolver's output is sorted ascending by `startAt`. -/
theorem createReserves_sorted (tuners : List Tuner) (cands : List ReserveProgram) :
    SortedByStart (createReserves tuners cands) := by
  unfold SortedByStart
  simp only [createReserves]
  have := pairwise_sortBy startLe startLe_total startLe_trans
    (((sortBy timeLe (buildEvents (sortBy rleb cands))).filter (fun e => e.isStart)).map
      (fun e => ((sortBy timeLe (buildEvents (sortBy rleb cands))).foldl (sweepStep tuners)
        (sortBy rleb cands, [])).1.getD e.idx default))
  exact this.imp (fun h => by simpa [startLe] using h)

/-- The resolver only sets conflict marks on non-skip candidates, so the
skip-conflict exclusion is preserved. -/
theorem createReserves_noSkipConflict (tuners : List Tuner) (cands : List ReserveProgram)
    (h : NoSkipConflict cands) : NoSkipConflict (createReserves tuners cands) := by
  intro r hr hc
  obtain ⟨m, hm, hOM⟩ := createReserves_mem tuners cands r hr
  obtain ⟨-, -, -, -, -, hskip, -, -, hconf⟩ := hOM
  rcases hconf hc.2 with hmc | hms
  · exact h m hm ⟨hskip ▸ hc.1, hmc⟩
  · rw [hskip] at hc
    rw [hms] at hc
    simp at hc

/-- Each output reservation of the resolver stems from the authority-minimal
candidate among all input candidates sharing its program id: deduplication
keeps the first occurrence in the authority-sorted order. -/
theorem createReserves_minimal (tuners : List Tuner) (cands : List ReserveProgram) :
    ∀ r ∈ createReserves tuners cands, ∃ m ∈ cands, OnlyMarks m r ∧
      ∀ m2 ∈ cands, m2.program.id = r.program.id → rleb m m2 = true := by
  intro r hr
  simp only [createReserves] at hr
  rw [mem_sortBy] at hr
  obtain ⟨e, hefil, rfl⟩ := List.mem_map.mp hr
  have hestart : e.isStart = true := by
    have := (List.mem_filter.mp hefil).2
    simpa using this
  have hee : e ∈ sortBy timeLe (buildEvents (sortBy rleb cands)) := (List.mem_filter.mp hefil).1
  have heb : e ∈ buildEvents (sortBy rleb cands) := mem_sortBy.mp hee
  rw [buildEvents] at heb
  obtain ⟨jm, hjm, hidx⟩ := buildGo_src _ _ _ heb
  obtain ⟨-, hlt, -⟩ := withIdx_mem (sortBy rleb cands) 0 jm hjm
  rw [Nat.sub_zero] at hlt
  have hj : e.idx < (sortBy rleb cands).length := hidx ▸ hlt
  have hmem : (sortBy rleb cands).getD e.idx default ∈ sortBy rleb cands :=
    getD_mem _ e.idx default hj
  obtain ⟨-, hOM⟩ := sweepFold_onlyMarks tuners (sortBy timeLe (buildEvents (sortBy rleb cands)))
    (sortBy rleb cands) []
  refine ⟨(sortBy rleb cands).getD e.idx default, mem_sortBy.mp hmem, hOM e.idx, ?_⟩
  intro m2 hm2 hid2
  have hprog := (hOM e.idx).1
  have hm2ms : m2 ∈ sortBy rleb cands := mem_sortBy.mpr hm2
  obtain ⟨⟨k, hk⟩, hgetk⟩ := List.mem_iff_get.mp hm2ms
  by_cases hkj : k < e.idx
  · exfalso
    obtain ⟨jm2, hjm2, hidx2, -, hfirst⟩ :=
      buildGo_first _ [] (withIdx_pairwise (sortBy rleb cands) 0) e heb hestart
    have hkmem : (k, (sortBy rleb cands).getD k default) ∈ withIdx 0 (sortBy rleb cands) := by
      simpa using withIdx_get (sortBy rleb cands) 0 k hk
    have hjm2v : (sortBy rleb cands).getD jm2.1 default = jm2.2 := by
      obtain ⟨-, -, hgd2⟩ := withIdx_mem (sortBy rleb cands) 0 jm2 hjm2
      simpa using hgd2
    refine hfirst (k, (sortBy rleb cands).getD k default) hkmem (by omega) ?_
    have hkv : (sortBy rleb cands).getD k default = m2 := by
      rw [getD_eq_get _ _ _ hk, hgetk]
    rw [hkv, ← hjm2v, ← hidx2, hid2, hprog]
  · by_cases hjk : e.idx = k
    · have hm2e : m2 = (sortBy rleb cands).getD e.idx default := by
        rw [hjk, getD_eq_get _ _ _ hk, hgetk]
      rw [hm2e]
      exact rleb_refl _
    · have hlt3 : e.idx < k := by omega
      have hpair := pairwise_sortBy rleb rleb_total rleb_trans cands
      rw [List.pairwise_iff_get] at hpair
      have hcmp := hpair ⟨e.idx, hj⟩ ⟨k, hk⟩ (Fin.mk_lt_mk.mpr hlt3)
      rw [← getD_eq_get _ _ default hj] at hcmp
      rw [hgetk] at hcmp
      exact hcmp

/-- The program ids of the resolver output are exactly the program ids of its
input candidates. -/
theorem createReserves_id_cover (tuners : List Tuner) (cands : List ReserveProgram) (pid : Nat) :
    pid ∈ (createReserves tuners cands).map (fun r => r.program.id) ↔
      pid ∈ cands.map (fun r => r.program.id) := by
  constructor
  · intro h
    obtain ⟨r, hr, rfl⟩ := List.mem_map.mp h
    obtain ⟨m, hm, hOM⟩ := createReserves_mem tuners cands r hr
    refine List.mem_map.mpr ⟨m, hm, ?_⟩
    rw [hOM.1]
  · intro h
    obtain ⟨m, hm, rfl⟩ := List.mem_map.mp h
    have hmms : m ∈ sortBy rleb cands := mem_sortBy.mpr hm
    obtain ⟨j, hjmem⟩ := withIdx_cover (sortBy rleb cands) 0 m hmms
    obtain ⟨e, he, hes, jm2, hjm2, hidx, hid⟩ := buildGo_cover _ [] (j, m) hjmem (by simp)
    have hee : e ∈ sortBy timeLe (buildEvents (sortBy rleb cands)) := by
      rw [mem_sortBy, buildEvents]
      exact he
    have hefil : e ∈ (sortBy timeLe (buildEvents (sortBy rleb cands))).filter
        (fun e2 => e2.isStart) := List.mem_filter.mpr ⟨hee, by simpa using hes⟩
    obtain ⟨-, hOM⟩ := sweepFold_onlyMarks tuners (sortBy timeLe (buildEvents (sortBy rleb cands)))
      (sortBy rleb cands) []
    obtain ⟨-, -, hgd2⟩ := withIdx_mem (sortBy rleb cands) 0 jm2 hjm2
    rw [Nat.sub_zero] at hgd2
    refine List.mem_map.mpr ⟨((sortBy timeLe (buildEvents (sortBy rleb cands))).foldl
      (sweepStep tuners) (sortBy rleb cands, [])).1.getD e.idx default, ?_, ?_⟩
    · simp only [createReserves]
      rw [mem_sortBy]
      exact List.mem_map.mpr ⟨e, hefil, rfl⟩
    · rw [(hOM e.idx).1, hidx, hgd2, hid]

/-- The resolver output holds at most one reservation per program id. -/
theorem createReserves_nodup (tuners : List Tuner) (cands : List ReserveProgram) :
    ((createReserves tuners cands).map (fun r => r.program.id)).Nodup := by
  have hcons : ∀ jm ∈ withIdx 0 (sortBy rleb cands), (sortBy rleb cands).getD jm.1 default = jm.2 := by
    intro jm hjm
    obtain ⟨-, -, hgd⟩ := withIdx_mem (sortBy rleb cands) 0 jm hjm
    simpa using hgd
  have hdist := buildGo_distinct (sortBy rleb cands) (withIdx 0 (sortBy rleb cands)) []
    (withIdx_pairwise _ 0) hcons
  have hsymm : ∀ {e f : SweepEvent}, (e.isStart = true → f.isStart = true →
      ((sortBy rleb cands).getD e.idx default).program.id ≠
        ((sortBy rleb cands).getD f.idx default).program.id) →
      (f.isStart = true → e.isStart = true →
      ((sortBy rleb cands).getD f.idx default).program.id ≠
        ((sortBy rleb cands).getD e.idx default).program.id) := by
    intro e f hef h1 h2
    exact (hef h2 h1).symm
  have hevpw := ((sortBy_perm timeLe (buildEvents (sortBy rleb cands))).pairwise_iff hsymm).mpr
    (by rw [buildEvents]; exact hdist)
  have hstpw := hevpw.sublist
    (@List.filter_sublist SweepEvent (fun e2 => e2.isStart)
      (sortBy timeLe (buildEvents (sortBy rleb cands))))
  obtain ⟨-, hOM⟩ := sweepFold_onlyMarks tuners (sortBy timeLe (buildEvents (sortBy rleb cands)))
    (sortBy rleb cands) []
  have hmapped : (((sortBy timeLe (buildEvents (sortBy rleb cands))).filter
      (fun e2 => e2.isStart)).map (fun e => (((sortBy timeLe (buildEvents (sortBy rleb cands))).foldl
        (sweepStep tuners) (sortBy rleb cands, [])).1.getD e.idx default).program.id)).Nodup := by
    show List.Pairwise (fun a b => a ≠ b) _
    rw [List.pairwise_map]
    refine List.Pairwise.imp_of_mem ?_ hstpw
    intro e f he hf hR
    have hes : e.isStart = true := by simpa using (List.mem_filter.mp he).2
    have hfs : f.isStart = true := by simpa using (List.mem_filter.mp hf).2
    rw [(hOM e.idx).1, (hOM f.idx).1]
    exact hR hes hfs
  have hperm : ((createReserves tuners cands).map (fun r => r.program.id)).Perm
      (((sortBy timeLe (buildEvents (sortBy rleb cands))).filter (fun e2 => e2.isStart)).map
        (fun e => (((sortBy timeLe (buildEvents (sortBy rleb cands))).foldl
          (sweepStep tuners) (sortBy rleb cands, [])).1.getD e.idx default).program.id)) := by
    simp only [createReserves]
    have := (sortBy_perm startLe (((sortBy timeLe (buildEvents (sortBy rleb cands))).filter
      (fun e2 => e2.isStart)).map (fun e => ((sortBy timeLe (buildEvents
        (sortBy rleb cands))).foldl (sweepStep tuners) (sortBy rleb cands, [])).1.getD e.idx
          default))).map (fun r : ReserveProgram => r.program.id)
    rw [List.map_map] at this
    exact this
  exact hperm.nodup_iff.mpr hmapped

/-- The comparator `sortReserveProgram` implements exactly the authority
order stated by the specification. -/
theorem rleb_characterization (a b : ReserveProgram) :
    rleb a b = true ↔
      ((a.isManual = true ∧ b.isManual = false) ∨
        (a.isManual = true ∧ b.isManual = true ∧ a.manualId.getD 0 ≤ b.manualId.getD 0) ∨
        (a.isManual = false ∧ b.isManual = false ∧ a.ruleId.getD 0 ≤ b.ruleId.getD 0)) := by
  unfold rleb sortReserveProgram
  cases ha : a.isManual <;> cases hb : b.isManual <;> simp [ha, hb] <;> omega

/-- Every entry surviving `cancelList` is an entry of the input, possibly
with `isSkip` set and `isConflict` cleared. -/
theorem cancelList_src (id : Nat) :
    ∀ (rs : List ReserveProgram), ∀ x ∈ (cancelList rs id).1,
      ∃ y ∈ rs, x.program = y.program ∧
        (x = y ∨ x = { y with isSkip := true, isConflict := false }) := by
  intro rs
  induction rs with
  | nil => simp [cancelList]
  | cons r rest ih =>
    intro x hx
    rw [cancelList] at hx
    split at hx
    · split at hx
      · exact ⟨x, List.mem_cons_of_mem _ hx, rfl, Or.inl rfl⟩
      · rcases List.mem_cons.mp hx with rfl | h2
        · exact ⟨r, List.mem_cons_self _ _, rfl, Or.inr rfl⟩
        · exact ⟨x, List.mem_cons_of_mem _ h2, rfl, Or.inl rfl⟩
    · rcases List.mem_cons.mp hx with rfl | h2
      · exact ⟨x, List.mem_cons_self _ _, rfl, Or.inl rfl⟩
      · obtain ⟨y, hy, hp, hc⟩ := ih x h2
        exact ⟨y, List.mem_cons_of_mem _ hy, hp, hc⟩

/-- `cancelList` preserves the `startAt` sortedness. -/
theorem cancelList_sorted (id : Nat) :
    ∀ (rs : List ReserveProgram), SortedByStart rs → SortedByStart (cancelList rs id).1 := by
  intro rs
  induction rs with
  | nil => intro h; simpa [cancelList] using h
  | cons r rest ih =>
    intro h
    have hhead : ∀ b ∈ rest, r.program.startAt ≤ b.program.startAt :=
      (List.pairwise_cons.mp h).1
    have htail : SortedByStart rest := (List.pairwise_cons.mp h).2
    unfold SortedByStart
    rw [cancelList]
    split
    · split
      · exact htail
      · exact List.Pairwise.cons (fun b hb => hhead b hb) htail
    · refine List.Pairwise.cons ?_ (ih htail)
      intro b hb
      obtain ⟨y, hy, hp, -⟩ := cancelList_src id rest b hb
      rw [hp]
      exact hhead y hy

/-- Every entry of `removeSkipList` is an entry of the input, possibly with
`isSkip` cleared; `isConflict` is untouched. -/
theorem removeSkipList_src (id : Nat) :
    ∀ (rs : List ReserveProgram), ∀ x ∈ (removeSkipList rs id).1,
      ∃ y ∈ rs, x.program = y.program ∧ x.isConflict = y.isConflict ∧
        (x = y ∨ x = { y with isSkip := false }) := by
  intro rs
  induction rs with
  | nil => simp [removeSkipList]
  | cons r rest ih =>
    intro x hx
    rw [removeSkipList] at hx
    split at hx
    · rcases List.mem_cons.mp hx with rfl | h2
      · exact ⟨r, List.mem_cons_self _ _, rfl, rfl, Or.inr rfl⟩
      · exact ⟨x, List.mem_cons_of_mem _ h2, rfl, rfl, Or.inl rfl⟩
    · rcases List.mem_cons.mp hx with rfl | h2
      · exact ⟨x, List.mem_cons_self _ _, rfl, rfl, Or.inl rfl⟩
      · obtain ⟨y, hy, hp, hc, hd⟩ := ih x h2
        exact ⟨y, List.mem_cons_of_mem _ hy, hp, hc, hd⟩

/-- `removeSkipList` preserves the `startAt` sortedness. -/
theorem removeSkipList_sorted (id : Nat) :
    ∀ (rs : List ReserveProgram), SortedByStart rs → SortedByStart (removeSkipList rs id).1 := by
  intro rs
  induction rs with
  | nil => intro h; simpa [removeSkipList] using h
  | cons r rest ih =>
    intro h
    have hhead : ∀ b ∈ rest, r.program.startAt ≤ b.program.startAt :=
      (List.pairwise_cons.mp h).1
    have htail : SortedByStart rest := (List.pairwise_cons.mp h).2
    unfold SortedByStart
    rw [removeSkipList]
    split
    · exact List.Pairwise.cons (fun b hb => hhead b hb) htail
    · refine List.Pairwise.cons ?_ (ih htail)
      intro b hb
      obtain ⟨y, hy, hp, -, -⟩ := removeSkipList_src id rest b hb
      rw [hp]
      exact hhead y hy

/-- Every refreshed manual reservation of `updateAll` comes from an input
reservation with only its program snapshot replaced. -/
theorem manualMatches_mem (cat : Catalogue) :
    ∀ (rs : List ReserveProgram), ∀ x ∈ manualMatches cat rs,
      ∃ y ∈ rs, ∃ p ps, cat.findId y.program.id = some (p :: ps) ∧
        x = { y with program := p } := by
  intro rs
  induction rs with
  | nil => simp [manualMatches]
  | cons r rest ih =>
    intro x hx
    rw [manualMatches] at hx
    split at hx
    · split at hx
      · obtain ⟨y, hy, hrest⟩ := ih x hx
        exact ⟨y, List.mem_cons_of_mem _ hy, hrest⟩
      · obtain ⟨y, hy, hrest⟩ := ih x hx
        exact ⟨y, List.mem_cons_of_mem _ hy, hrest⟩
      · next p ps heq =>
        rcases List.mem_cons.mp hx with rfl | h2
        · exact ⟨r, List.mem_cons_self _ _, p, ps, heq, rfl⟩
        · obtain ⟨y, hy, hrest⟩ := ih x h2
          exact ⟨y, List.mem_cons_of_mem _ hy, hrest⟩
    · obtain ⟨y, hy, hrest⟩ := ih x hx
      exact ⟨y, List.mem_cons_of_mem _ hy, hrest⟩

/-- Every rule-match candidate of `updateAll` is freshly built: no conflict
mark, not manual, and its skip flag is looked up in the skip index by its own
program id. -/
theorem ruleMatches_mem (cat : Catalogue) (skips : List Nat) :
    ∀ (rules : List RulesSchema), ∀ x ∈ ruleMatches cat skips rules,
      x.isConflict = false ∧ x.isManual = false ∧ x.isSkip = skips.contains x.program.id := by
  intro rules
  induction rules with
  | nil => simp [ruleMatches]
  | cons rule rest ih =>
    intro x hx
    rw [ruleMatches] at hx
    split at hx
    · split at hx
      · exact ih x hx
      · rcases List.mem_append.mp hx with h1 | h2
        · obtain ⟨p, hp, rfl⟩ := List.mem_map.mp h1
          exact ⟨rfl, rfl, rfl⟩
        · exact ih x h2
    · exact ih x hx

/-- Every program matched by an enabled rule whose query succeeds appears
among the rule-match candidates of `updateAll`. -/
theorem ruleMatches_cover (cat : Catalogue) (skips : List Nat) :
    ∀ (rules : List RulesSchema) (rule : RulesSchema), rule ∈ rules → rule.enable = true →
      ∀ ps, cat.findRule (createSearchOption rule) = some ps → ∀ q ∈ ps,
        ∃ x ∈ ruleMatches cat skips rules, x.program = q := by
  intro rules
  induction rules with
  | nil => simp
  | cons rule2 rest ih =>
    intro rule hmem hen ps hfind q hq
    rw [ruleMatches]
    rcases List.mem_cons.mp hmem with rfl | h2
    · rw [if_pos hen, hfind]
      exact ⟨_, List.mem_append.mpr (Or.inl (List.mem_map.mpr ⟨q, hq, rfl⟩)), rfl⟩
    · obtain ⟨x, hx, hxq⟩ := ih rule h2 hen ps hfind q hq
      split
      · split
        · exact ⟨x, hx, hxq⟩
        · exact ⟨x, List.mem_append.mpr (Or.inr hx), hxq⟩
      · exact ⟨x, hx, hxq⟩

/-- A program id is in the skip index iff some input reservation with that id
is skipped. -/
theorem mem_skipIds (rs : List ReserveProgram) (p : Nat) :
    p ∈ skipIds rs ↔ ∃ r ∈ rs, r.program.id = p ∧ r.isSkip = true := by
  unfold skipIds
  constructor
  · intro h
    obtain ⟨r, hr, rfl⟩ := List.mem_map.mp h
    exact ⟨r, (List.mem_filter.mp hr).1, rfl, by simpa using (List.mem_filter.mp hr).2⟩
  · intro ⟨r, hr, hid, hskip⟩
    exact List.mem_map.mpr ⟨r, List.mem_filter.mpr ⟨hr, by simpa using hskip⟩, hid⟩

/-- C9: the rule-to-query adapter is a pure field-wise projection.
`createSearchOption` always sets `week` and copies each remaining rule field
iff the source field is non-null; `createOption` always carries `enable` and
copies `directory` and `recordedFormat` iff non-null; `createEncodeOption`
returns null iff `rule.delTs` is null and otherwise carries `delTs` plus each
mode/directory field copied iff non-null.  (With `Option`-typed fields that
start out absent, "copied iff non-null" is exactly field equality.) -/
theorem C9_projection_fieldwise (rule : RulesSchema) :
    (createSearchOption rule).week = rule.week ∧
    (createSearchOption rule).keyword = rule.keyword ∧
    (createSearchOption rule).ignoreKeyword = rule.ignoreKeyword ∧
    (createSearchOption rule).keyCS = rule.keyCS ∧
    (createSearchOption rule).keyRegExp = rule.keyRegExp ∧
    (createSearchOption rule).title = rule.title ∧
    (createSearchOption rule).description = rule.description ∧
    (createSearchOption rule).extended = rule.extended ∧
    (createSearchOption rule).GR = rule.GR ∧
    (createSearchOption rule).BS = rule.BS ∧
    (createSearchOption rule).CS = rule.CS ∧
    (createSearchOption rule).SKY = rule.SKY ∧
    (createSearchOption rule).station = rule.station ∧
    (createSearchOption rule).genrelv1 = rule.genrelv1 ∧
    (createSearchOption rule).genrelv2 = rule.genrelv2 ∧
    (createSearchOption rule).startTime = rule.startTime ∧
    (createSearchOption rule).timeRange = rule.timeRange ∧
    (createSearchOption rule).isFree = rule.isFree ∧
    (createSearchOption rule).durationMin = rule.durationMin ∧
    (createSearchOption rule).durationMax = rule.durationMax ∧
    (createOption rule).enable = rule.enable ∧
    (createOption rule).directory = rule.directory ∧
    (createOption rule).recordedFormat = rule.recordedFormat ∧
    createEncodeOption rule = rule.delTs.map (fun d =>
      { delTs := d, mode1 := rule.mode1, directory1 := rule.directory1, mode2 := rule.mode2,
        directory2 := rule.directory2, mode3 := rule.mode3, directory3 := rule.directory3 }) := by
  refine ⟨?_, ?_, ?_, ?_, ?_, ?_, ?_, ?_, ?_, ?_, ?_, ?_, ?_, ?_, ?_, ?_, ?_, ?_, ?_, ?_,
    ?_, ?_, ?_, ?_⟩
  · simp [createSearchOption, apply_ite (SearchInterface.week)]
  · cases h : rule.keyword <;> simp [createSearchOption, h, apply_ite (SearchInterface.keyword)]
  · cases h : rule.ignoreKeyword <;>
      simp [createSearchOption, h, apply_ite (SearchInterface.ignoreKeyword)]
  · cases h : rule.keyCS <;> simp [createSearchOption, h, apply_ite (SearchInterface.keyCS)]
  · cases h : rule.keyRegExp <;> simp [createSearchOption, h, apply_ite (SearchInterface.keyRegExp)]
  · cases h : rule.title <;> simp [createSearchOption, h, apply_ite (SearchInterface.title)]
  · cases h : rule.description <;>
      simp [createSearchOption, h, apply_ite (SearchInterface.description)]
  · cases h : rule.extended <;> simp [createSearchOption, h, apply_ite (SearchInterface.extended)]
  · cases h : rule.GR <;> simp [createSearchOption, h, apply_ite (SearchInterface.GR)]
  · cases h : rule.BS <;> simp [createSearchOption, h, apply_ite (SearchInterface.BS)]
  · cases h : rule.CS <;> simp [createSearchOption, h, apply_ite (SearchInterface.CS)]
  · cases h : rule.SKY <;> simp [createSearchOption, h, apply_ite (SearchInterface.SKY)]
  · cases h : rule.station <;> simp [createSearchOption, h, apply_ite (SearchInterface.station)]
  · cases h : rule.genrelv1 <;> simp [createSearchOption, h, apply_ite (SearchInterface.genrelv1)]
  · cases h : rule.genrelv2 <;> simp [createSearchOption, h, apply_ite (SearchInterface.genrelv2)]
  · cases h : rule.startTime <;> simp [createSearchOption, h, apply_ite (SearchInterface.startTime)]
  · cases h : rule.timeRange <;> simp [createSearchOption, h, apply_ite (SearchInterface.timeRange)]
  · cases h : rule.isFree <;> simp [createSearchOption, h, apply_ite (SearchInterface.isFree)]
  · cases h : rule.durationMin <;>
      simp [createSearchOption, h, apply_ite (SearchInterface.durationMin)]
  · cases h : rule.durationMax <;>
      simp [createSearchOption, h, apply_ite (SearchInterface.durationMax)]
  · simp [createOption, apply_ite (OptionInterface.enable)]
  · cases h : rule.directory <;> simp [createOption, h, apply_ite (OptionInterface.directory)]
  · cases h : rule.recordedFormat <;>
      simp [createOption, h, apply_ite (OptionInterface.recordedFormat)]
  · cases hd : rule.delTs with
    | none => simp [createEncodeOption, hd]
    | some d =>
      cases h1 : rule.mode1 <;> cases h2 : rule.directory1 <;> cases h3 : rule.mode2 <;>
        cases h4 : rule.directory2 <;> cases h5 : rule.mode3 <;> cases h6 : rule.directory3 <;>
        simp [createEncodeOption, hd, h1, h2, h3, h4, h5, h6]

/-- C10: `getReservesAllId` places every reservation in exactly one of its
three output lists, with conflict taking precedence over skip: a reservation
with `isConflict` goes to `conflicts` regardless of `isSkip`, a reservation
with `isSkip` but not `isConflict` goes to `skips`, and every other one goes
to `reserves`; each item carries the `programId` and, iff the reservation is
rule-origin (its `ruleId` is present), that `ruleId`.  The partition is
exhaustive: the three lengths sum to the input length. -/
theorem C10_partition (rs : List ReserveProgram) :
    (getReservesAllId rs).conflicts = (rs.filter (fun r => r.isConflict)).map
      (fun r => { programId := r.program.id, ruleId := r.ruleId }) ∧
    (getReservesAllId rs).skips = (rs.filter (fun r => !r.isConflict && r.isSkip)).map
      (fun r => { programId := r.program.id, ruleId := r.ruleId }) ∧
    (getReservesAllId rs).reserves = (rs.filter (fun r => !r.isConflict && !r.isSkip)).map
      (fun r => { programId := r.program.id, ruleId := r.ruleId }) ∧
    (getReservesAllId rs).conflicts.length + (getReservesAllId rs).skips.length +
      (getReservesAllId rs).reserves.length = rs.length := by
  induction rs with
  | nil => exact ⟨rfl, rfl, rfl, rfl⟩
  | cons r rest ih =>
    obtain ⟨ihc, ihs, ihr, ihl⟩ := ih
    rw [getReservesAllId]
    by_cases hc : r.isConflict = true
    · simp only [hc, if_true, List.filter_cons, Bool.not_true, Bool.false_and]
      refine ⟨?_, ?_, ?_, ?_⟩
      · simp [ihc, hc]
      · simp [ihs]
      · simp [ihr]
      · simp only [List.length_cons]
        omega
    · rw [Bool.not_eq_true] at hc
      by_cases hs : r.isSkip = true
      · simp only [hc, hs, Bool.false_eq_true, if_false, if_true, List.filter_cons,
          Bool.not_false, Bool.true_and]
        refine ⟨?_, ?_, ?_, ?_⟩
        · simp [ihc, hc]
        · simp [ihs, hc, hs]
        · simp [ihr, hs]
        · simp only [List.length_cons]
          omega
      · rw [Bool.not_eq_true] at hs
        simp only [hc, hs, Bool.false_eq_true, if_false, List.filter_cons]
        refine ⟨?_, ?_, ?_, ?_⟩
        · simp [ihc, hc]
        · simp [ihs, hc, hs]
        · simp [ihr, hc, hs]
        · simp only [List.length_cons]
          omega

/-- C3 (code bug): the single-writer flag is NOT always cleared.  When
`removeSkip` is called with a program id matching no reservation, the source
sets `isRunning` and returns without ever clearing it; likewise `updateAll`
propagates a `rulesDB.findAll` exception without clearing the flag.  Both
evaluations below run the embedded code at such failing inputs; by contrast
`cancel` with an unmatched id does clear the flag. -/
theorem C3_isRunning_leak :
    (removeSkip { reserves := [] } 1).1.isRunning = true ∧
    (updateAll catEmpty rstoreFailAll { reserves := [] }).1.isRunning = true ∧
    (cancel { reserves := [] } 1).1.isRunning = false := by decide

/-- C4 counterexample: `clean` does not check `isRunning`.  On a state with
the flag set it proceeds and evicts an ended reservation, so the claim that
every public mutating operation fails fast with an already-running error and
leaves the state unchanged is false for `clean` (its return type has no error
channel at all). -/
theorem C4_counterexample :
    stBusy.isRunning = true ∧ (clean stBusy 400).reserves ≠ stBusy.reserves := by decide

/-- C4 (amended): only `addReserve`, `cancel`, `removeSkip`, `updateAll` and
`updateRule` check the single-writer flag; each of them, invoked while
`isRunning` is true, fails fast with an already-running error and leaves the
state unchanged.  `setTuners` and `clean` perform their effect regardless of
the flag. -/
theorem C4_amended_guard (st : ManagerState) (h : st.isRunning = true)
    (cat : Catalogue) (rstore : RuleStore) (chk : EncodeInterface → Bool)
    (now pid rid id2 now2 : Nat) (enc : Option EncodeInterface) (ts : List Tuner) :
    cancel st id2 = (st, some ReserveErr.running) ∧
    removeSkip st id2 = (st, some ReserveErr.running, none) ∧
    addReserve cat chk now st pid enc = (st, some ReserveErr.manualRunning) ∧
    updateAll cat rstore st = (st, some ReserveErr.running) ∧
    updateRule cat rstore st rid = (st, some ReserveErr.running) ∧
    clean st now2 =
      { st with reserves := st.reserves.filter (fun r => !decide (r.program.endAt < now2)) } ∧
    setTuners st ts = { st with tuners := ts } := by
  refine ⟨?_, ?_, ?_, ?_, ?_, rfl, rfl⟩ <;>
    simp [cancel, removeSkip, addReserve, updateAll, updateRule, h]

/-- Closed witness for C4: the guarded operations fail fast on `stBusy`. -/
theorem C4_amended_guard_witness :
    stBusy.isRunning = true ∧ cancel stBusy 1 = (stBusy, some ReserveErr.running) :=
  ⟨by decide,
    (C4_amended_guard stBusy (by decide) catEmpty rstoreEmpty (fun _ => true) 0 0 0 1 0 none []).1⟩

/-- C1 counterexample: with one GR tuner and candidates P1 = [100,200) (rule
1) and P2 = [150,300) (rule 2), the source resolver marks P2 conflicted at
P2's start event (P1 holds the tuner) and still reports `isConflict = true`
although P2 is accepted by the tuner when re-evaluated at P1's end event; the
resolver that follows the claim's words ("otherwise ensure isConflict =
false") reports `isConflict = false` for P2. -/
theorem C1_counterexample :
    (∃ r ∈ createReserves [tunerGR] [ruleRes 1 100 200 1, ruleRes 2 150 300 2],
      r.program.id = 2 ∧ r.isConflict = true) ∧
    (∀ r ∈ createReservesClearing [tunerGR] [ruleRes 1 100 200 1, ruleRes 2 150 300 2],
      r.program.id = 2 → r.isConflict = false) := by decide

/-- C1 (amended): at every sweep event the active set is updated, re-sorted
by the authority order, the tuners are cleared and the active candidates are
re-assigned in that order, and a candidate no tuner accepts is marked
`isConflict = true`; but a conflict mark, once set, is never cleared, so
acceptance at a later event does not remove an earlier mark.  Formally: every
output candidate agrees with an input candidate on all fields except that
`isConflict` may newly change from false to true, and only for a non-skip
candidate; the same holds stepwise across each single sweep event. -/
theorem C1_amended_sticky (tuners : List Tuner) (cands : List ReserveProgram) :
    (∀ r ∈ createReserves tuners cands, ∃ m ∈ cands, OnlyMarks m r) ∧
    (∀ (st : List ReserveProgram × List Nat) (e : SweepEvent) (i : Nat),
      OnlyMarks (st.1.getD i default) ((sweepStep tuners st e).1.getD i default)) :=
  ⟨createReserves_mem tuners cands, fun st e i => (sweepStep_onlyMarks tuners st e).2 i⟩

/-- Closed witness for C1: the sticky-conflict correspondence evaluated on a
concrete run. -/
theorem C1_amended_sticky_witness :
    ∃ m ∈ [ruleRes 1 100 200 1, ruleRes 2 150 300 2], OnlyMarks m (ruleRes 1 100 200 1) :=
  (C1_amended_sticky [tunerGR] [ruleRes 1 100 200 1, ruleRes 2 150 300 2]).1
    (ruleRes 1 100 200 1) (by decide)

/-- C5: `createReserves` deduplicates its candidate multiset by `program.id`
preserving priority: the comparator implements exactly the authority order
(manual before rule; smaller `manualId` first among manuals; smaller `ruleId`
first among rules), the candidate list is stably sorted by it, the output
carries each input program id exactly once, and each output reservation stems
from an authority-minimal candidate among all candidates sharing its id.
The same order is the one the sweep uses for tuner allocation (`sweepStep`
re-sorts the active set with the same comparator `rleb`). -/
theorem C5_dedup_authority (tuners : List Tuner) (cands : List ReserveProgram) :
    (∀ a b : ReserveProgram, rleb a b = true ↔
      ((a.isManual = true ∧ b.isManual = false) ∨
        (a.isManual = true ∧ b.isManual = true ∧ a.manualId.getD 0 ≤ b.manualId.getD 0) ∨
        (a.isManual = false ∧ b.isManual = false ∧ a.ruleId.getD 0 ≤ b.ruleId.getD 0))) ∧
    (sortBy rleb cands).Perm cands ∧
    (sortBy rleb cands).Pairwise (fun a b => rleb a b = true) ∧
    ((createReserves tuners cands).map (fun r => r.program.id)).Nodup ∧
    (∀ pid, pid ∈ (createReserves tuners cands).map (fun r => r.program.id) ↔
      pid ∈ cands.map (fun r => r.program.id)) ∧
    (∀ r ∈ createReserves tuners cands, ∃ m ∈ cands, OnlyMarks m r ∧
      ∀ m2 ∈ cands, m2.program.id = r.program.id → rleb m m2 = true) :=
  ⟨rleb_characterization, sortBy_perm rleb cands,
    pairwise_sortBy rleb rleb_total rleb_trans cands,
    createReserves_nodup tuners cands,
    fun pid => createReserves_id_cover tuners cands pid,
    createReserves_minimal tuners cands⟩

/-- Closed witness for C5: deduplication of two same-id candidates evaluated
concretely. -/
theorem C5_dedup_authority_witness :
    ((createReserves [tunerGR] [ruleRes 7 100 200 9, ruleRes 7 100 200 2]).map
      (fun r => r.program.id)).Nodup ∧
    (7 ∈ (createReserves [tunerGR] [ruleRes 7 100 200 9, ruleRes 7 100 200 2]).map
      (fun r => r.program.id) ↔
      7 ∈ [ruleRes 7 100 200 9, ruleRes 7 100 200 2].map (fun r => r.program.id)) :=
  ⟨(C5_dedup_authority [tunerGR] [ruleRes 7 100 200 9, ruleRes 7 100 200 2]).2.2.2.1,
    (C5_dedup_authority [tunerGR] [ruleRes 7 100 200 9, ruleRes 7 100 200 2]).2.2.2.2.1 7⟩

/-- C2 counterexample: `addReserve` aborts with the Conflict error even when
the newly added program itself would NOT be marked `isConflict` by the
resolver.  With one GR tuner, an existing rule reservation P1 = [100,300) and
a new manual program P2 = [150,250), the resolver gives the tuner to the
manual entry and marks P1 (not P2) as conflict — yet the call aborts, because
the source checks every entry of the resolver output, not just the new one.
State and persisted document stay unchanged on the abort. -/
theorem C2_counterexample :
    (addReserve catC2 (fun _ => true) 1000 stC2 2 none).2 = some ReserveErr.conflictErr ∧
    (∀ r ∈ createReserves stC2.tuners (addCandidates stC2 (progOf 2 150 250) 1000 none),
      r.program.id = 2 → r.isConflict = false) ∧
    (addReserve catC2 (fun _ => true) 1000 stC2 2 none).1.reserves = stC2.reserves ∧
    (addReserve catC2 (fun _ => true) 1000 stC2 2 none).1.saved = stC2.saved := by decide

/-- C2 (amended): under no concurrent run, a valid encode option, a
successful non-empty catalogue lookup and no duplicate id, `addReserve`
aborts with the Conflict error iff ANY candidate in the resolver output over
the candidate set (overlapping non-skip non-conflict existing reservations
plus the new program) is marked `isConflict` — not only the new program
itself; on that abort the reservation list and the persisted document are
unchanged, and otherwise the new reservation is appended, the list re-sorted
by `startAt`, and the result persisted. -/
theorem C2_amended_conflict_abort (cat : Catalogue) (chk : EncodeInterface → Bool)
    (now pid : Nat) (enc : Option EncodeInterface) (st : ManagerState)
    (hrun : st.isRunning = false) (henc : encodeBad chk enc = false)
    (p : Program) (ps : List Program) (hfind : cat.findId pid = some (p :: ps))
    (hdup : st.reserves.any (fun r => r.program.id = pid) = false) :
    ((addReserve cat chk now st pid enc).2 = some ReserveErr.conflictErr ↔
      (createReserves st.tuners (addCandidates st p now enc)).any
        (fun r => r.isConflict) = true) ∧
    ((createReserves st.tuners (addCandidates st p now enc)).any
        (fun r => r.isConflict) = true →
      (addReserve cat chk now st pid enc).1 = { st with isRunning := false }) ∧
    ((createReserves st.tuners (addCandidates st p now enc)).any
        (fun r => r.isConflict) = false →
      (addReserve cat chk now st pid enc).2 = none ∧
      (addReserve cat chk now st pid enc).1.reserves =
        sortBy startLe (st.reserves ++ [newManualReserve p now enc]) ∧
      (addReserve cat chk now st pid enc).1.saved =
        sortBy startLe (st.reserves ++ [newManualReserve p now enc]) :: st.saved ∧
      (addReserve cat chk now st pid enc).1.isRunning = false) := by
  have hcand : addCandidates { st with isRunning := true } p now enc =
      addCandidates st p now enc := rfl
  unfold addReserve
  rw [hrun, henc, hfind]
  simp only [Bool.false_eq_true, if_false, hdup, hcand]
  by_cases hconf : (createReserves st.tuners (addCandidates st p now enc)).any
      (fun r => r.isConflict) = true
  · simp [hconf]
  · rw [Bool.not_eq_true] at hconf
    simp [hconf, writeReservesFile]

/-- Closed witness for C2: the success path of `addReserve` on an empty
planner state. -/
theorem C2_amended_conflict_abort_witness :
    (addReserve catC2 (fun _ => true) 1000 { tuners := [tunerGR] } 2 none).2 = none ∧
    (addReserve catC2 (fun _ => true) 1000 { tuners := [tunerGR] } 2 none).1.reserves =
      sortBy startLe (({ tuners := [tunerGR] } : ManagerState).reserves ++
        [newManualReserve (progOf 2 150 250) 1000 none]) ∧
    (addReserve catC2 (fun _ => true) 1000 { tuners := [tunerGR] } 2 none).1.saved =
      sortBy startLe (({ tuners := [tunerGR] } : ManagerState).reserves ++
        [newManualReserve (progOf 2 150 250) 1000 none]) ::
        ({ tuners := [tunerGR] } : ManagerState).saved ∧
    (addReserve catC2 (fun _ => true) 1000 { tuners := [tunerGR] } 2 none).1.isRunning = false :=
  (C2_amended_conflict_abort catC2 (fun _ => true) 1000 2 none { tuners := [tunerGR] }
    (by decide) (by decide) (progOf 2 150 250) [] (by decide) (by decide)).2.2 (by decide)

/-- C6: a skip survives a full re-plan.  If every reservation for program id
p is skipped before `updateAll()` (in particular the unique reservation for
p), the catalogue's id lookups are id-consistent, and p still matches some
enabled rule whose query succeeds, then after `updateAll()` completes
successfully the retained reservation for p exists and still has
`isSkip = true`. -/
theorem C6_skip_preserved (cat : Catalogue) (rstore : RuleStore) (st : ManagerState) (p : Nat)
    (hrun : st.isRunning = false)
    (hid : ∀ pid ps, cat.findId pid = some ps → ∀ q ∈ ps, q.id = pid)
    (hskip : ∀ r ∈ st.reserves, r.program.id = p → r.isSkip = true)
    (hex : ∃ r ∈ st.reserves, r.program.id = p)
    (rules : List RulesSchema) (hall : rstore.findAll = some rules)
    (hmatch : ∃ rule ∈ rules, rule.enable = true ∧ ∃ ps,
      cat.findRule (createSearchOption rule) = some ps ∧ ∃ q ∈ ps, q.id = p) :
    (updateAll cat rstore st).2 = none ∧
    (∃ r ∈ (updateAll cat rstore st).1.reserves, r.program.id = p) ∧
    (∀ r ∈ (updateAll cat rstore st).1.reserves, r.program.id = p → r.isSkip = true) := by
  have hres : (updateAll cat rstore st).1.reserves =
      createReserves st.tuners (manualMatches cat st.reserves ++
        ruleMatches cat (skipIds st.reserves) rules) := by
    unfold updateAll
    rw [hrun, hall]
    rfl
  have herr : (updateAll cat rstore st).2 = none := by
    unfold updateAll
    rw [hrun, hall]
    rfl
  have hpskip : p ∈ skipIds st.reserves := by
    obtain ⟨r, hr, hrp⟩ := hex
    exact (mem_skipIds st.reserves p).mpr ⟨r, hr, hrp, hskip r hr hrp⟩
  have hAllSkip : ∀ m ∈ manualMatches cat st.reserves ++
      ruleMatches cat (skipIds st.reserves) rules, m.program.id = p → m.isSkip = true := by
    intro m hm hmp
    rcases List.mem_append.mp hm with h1 | h2
    · obtain ⟨y, hy, p0, ps0, hfind, rfl⟩ := manualMatches_mem cat st.reserves m h1
      have hy0 : p0.id = y.program.id := hid y.program.id (p0 :: ps0) hfind p0 (List.mem_cons_self _ _)
      have : y.program.id = p := by
        simpa [hy0] using hmp
      exact hskip y hy this
    · obtain ⟨-, -, hs⟩ := ruleMatches_mem cat (skipIds st.reserves) rules m h2
      rw [hs, hmp]
      simp [List.contains, List.elem_iff]
      exact hpskip
  refine ⟨herr, ?_, ?_⟩
  · obtain ⟨rule, hrule, hen, ps, hfind, q, hq, hqp⟩ := hmatch
    obtain ⟨x, hx, hxq⟩ := ruleMatches_cover cat (skipIds st.reserves) rules rule hrule hen ps hfind q hq
    have hxin : x ∈ manualMatches cat st.reserves ++ ruleMatches cat (skipIds st.reserves) rules :=
      List.mem_append.mpr (Or.inr hx)
    have hpin : p ∈ (manualMatches cat st.reserves ++
        ruleMatches cat (skipIds st.reserves) rules).map (fun r => r.program.id) :=
      List.mem_map.mpr ⟨x, hxin, by rw [hxq, hqp]⟩
    have := (createReserves_id_cover st.tuners _ p).mpr hpin
    obtain ⟨r, hr, hrp⟩ := List.mem_map.mp this
    rw [hres]
    exact ⟨r, hr, hrp⟩
  · intro r hr hrp
    rw [hres] at hr
    obtain ⟨m, hm, hOM⟩ := createReserves_mem _ _ r hr
    have hms : r.isSkip = m.isSkip := hOM.2.2.2.2.2.1
    have hmp : m.program.id = p := by
      rw [← hOM.1, hrp]
    rw [hms]
    exact hAllSkip m hm hmp

/-- Closed witness for C6: a skipped rule reservation survives a concrete
re-plan. -/
theorem C6_skip_preserved_witness :
    (updateAll catC6 rstoreC6 stC6).2 = none ∧
    (∃ r ∈ (updateAll catC6 rstoreC6 stC6).1.reserves, r.program.id = 1) ∧
    (∀ r ∈ (updateAll catC6 rstoreC6 stC6).1.reserves, r.program.id = 1 → r.isSkip = true) :=
  C6_skip_preserved catC6 rstoreC6 stC6 1 (by decide)
    (fun pid ps h q hq => by
      simp [catC6] at h
      subst h
      simp at hq)
    (by decide) (by decide) [ruleC6] rfl
    ⟨ruleC6, by decide, by decide, [progOf 1 100 200], rfl, progOf 1 100 200, by decide, rfl⟩

/-- The reservation list after `cancel` is either untouched or the result of
`cancelList`. -/
theorem cancel_reserves (st : ManagerState) (id2 : Nat) :
    (cancel st id2).1.reserves = st.reserves ∨
    (cancel st id2).1.reserves = (cancelList st.reserves id2).1 := by
  unfold cancel
  by_cases hrun : st.isRunning = true
  · simp only [hrun, if_true]
    exact Or.inl trivial
  · rw [Bool.not_eq_true] at hrun
    simp only [hrun, Bool.false_eq_true, if_false]
    right
    by_cases hb : (cancelList st.reserves id2).2 = true
    · simp only [hb, if_true]
      rfl
    · rw [Bool.not_eq_true] at hb
      simp only [hb, Bool.false_eq_true, if_false]

/-- The reservation list after `removeSkip` is either untouched or the result
of `removeSkipList`. -/
theorem removeSkip_reserves (st : ManagerState) (id2 : Nat) :
    (removeSkip st id2).1.reserves = st.reserves ∨
    (removeSkip st id2).1.reserves = (removeSkipList st.reserves id2).1 := by
  unfold removeSkip
  by_cases hrun : st.isRunning = true
  · simp only [hrun, if_true]
    exact Or.inl trivial
  · rw [Bool.not_eq_true] at hrun
    simp only [hrun, Bool.false_eq_true, if_false]
    by_cases hb : (removeSkipList st.reserves id2).2.1 = true
    · simp only [hb, if_true]
      exact Or.inr trivial
    · rw [Bool.not_eq_true] at hb
      simp only [hb, Bool.false_eq_true, if_false]
      exact Or.inl trivial

/-- The reservation list after `addReserve` is either untouched or the old
list plus the new manual entry, sorted by `startAt`. -/
theorem addReserve_reserves (cat : Catalogue) (chk : EncodeInterface → Bool) (now : Nat)
    (st : ManagerState) (pid : Nat) (enc : Option EncodeInterface) :
    (addReserve cat chk now st pid enc).1.reserves = st.reserves ∨
    ∃ p, (addReserve cat chk now st pid enc).1.reserves =
      sortBy startLe (st.reserves ++ [newManualReserve p now enc]) := by
  unfold addReserve
  by_cases hrun : st.isRunning = true
  · simp only [hrun, if_true]
    exact Or.inl trivial
  · rw [Bool.not_eq_true] at hrun
    simp only [hrun, Bool.false_eq_true, if_false]
    by_cases henc : encodeBad chk enc = true
    · simp only [henc, if_true]
      exact Or.inl trivial
    · rw [Bool.not_eq_true] at henc
      simp only [henc, Bool.false_eq_true, if_false]
      cases hfind : cat.findId pid with
      | none => exact Or.inl rfl
      | some ps =>
        cases ps with
        | nil => exact Or.inl rfl
        | cons p rest =>
          by_cases hdup : st.reserves.any (fun r => decide (r.program.id = pid)) = true
          · simp only [hdup, if_true]
            exact Or.inl trivial
          · rw [Bool.not_eq_true] at hdup
            simp only [hdup, Bool.false_eq_true, if_false]
            by_cases hconf : (createReserves st.tuners
                (addCandidates { st with isRunning := true } p now enc)).any
                (fun r => r.isConflict) = true
            · simp only [hconf, if_true]
              exact Or.inl trivial
            · rw [Bool.not_eq_true] at hconf
              simp only [hconf, Bool.false_eq_true, if_false]
              exact Or.inr ⟨p, rfl⟩

/-- The reservation list after `updateAll` is either untouched or a resolver
output over the refreshed manual and rule candidates. -/
theorem updateAll_reserves (cat : Catalogue) (rstore : RuleStore) (st : ManagerState) :
    (updateAll cat rstore st).1.reserves = st.reserves ∨
    ∃ rules, rstore.findAll = some rules ∧
      (updateAll cat rstore st).1.reserves = createReserves st.tuners
        (manualMatches cat st.reserves ++ ruleMatches cat (skipIds st.reserves) rules) := by
  unfold updateAll
  by_cases hrun : st.isRunning = true
  · simp only [hrun, if_true]
    exact Or.inl trivial
  · rw [Bool.not_eq_true] at hrun
    simp only [hrun, Bool.false_eq_true, if_false]
    cases hall : rstore.findAll with
    | none => exact Or.inl rfl
    | some rules => exact Or.inr ⟨rules, rfl, rfl⟩

/-- The reservation list after `updateRule` is either untouched or a resolver
output over candidates that all enter with `isConflict = false`. -/
theorem updateRule_reserves (cat : Catalogue) (rstore : RuleStore) (st : ManagerState)
    (rid : Nat) :
    (updateRule cat rstore st rid).1.reserves = st.reserves ∨
    ∃ cands : List ReserveProgram, (∀ m ∈ cands, m.isConflict = false) ∧
      (updateRule cat rstore st rid).1.reserves = createReserves st.tuners cands := by
  have hkeep : ∀ (ruleOpt : Option RulesSchema) (programs : List Program),
      ∃ cands : List ReserveProgram, (∀ m ∈ cands, m.isConflict = false) ∧
        (updateRuleCommit { st with isRunning := true } rid ruleOpt programs).1.reserves =
          createReserves st.tuners cands := by
    intro ruleOpt programs
    refine ⟨_, ?_, rfl⟩
    intro m hm
    rcases List.mem_append.mp hm with h1 | h2
    · obtain ⟨y, -, rfl⟩ := List.mem_map.mp h1
      rfl
    · cases ruleOpt with
      | none => simp at h2
      | some rule =>
        obtain ⟨q, -, rfl⟩ := List.mem_map.mp h2
        rfl
  unfold updateRule
  by_cases hrun : st.isRunning = true
  · simp only [hrun, if_true]
    exact Or.inl trivial
  · rw [Bool.not_eq_true] at hrun
    simp only [hrun, Bool.false_eq_true, if_false]
    cases hfind : rstore.findId rid with
    | none => exact Or.inl rfl
    | some result =>
      cases result with
      | nil => exact Or.inr (hkeep _ _)
      | cons r rest =>
        by_cases hen : r.enable = true
        · simp only [hen, if_true]
          cases hrule : cat.findRule (createSearchOption r) with
          | none => exact Or.inl rfl
          | some programs => exact Or.inr (hkeep _ _)
        · rw [Bool.not_eq_true] at hen
          simp only [hen, Bool.false_eq_true, if_false]
          exact Or.inr (hkeep _ _)

/-- A slice is a sublist. -/
theorem sliceOpt_sublist (l : List ReserveProgram) (limit : Option Nat) (off : Nat) :
    (sliceOpt l limit off).Sublist l := by
  cases limit with
  | none => exact List.Sublist.refl l
  | some lim => exact (List.take_sublist _ _).trans (List.drop_sublist _ _)

/-- C7: for every reservation held in the planner state after any of the
operations (whatever the outcome), `isSkip` and `isConflict` are never both
true, provided the invariant held before.  A skipped candidate is ignored by
the sweep and thus never marked; `cancel` clears `isConflict` when it sets
`isSkip`; fresh rule candidates start unconflicted. -/
theorem C7_skip_conflict_exclusive (st : ManagerState) (cat : Catalogue) (rstore : RuleStore)
    (chk : EncodeInterface → Bool) (now pid rid id2 now2 : Nat) (enc : Option EncodeInterface)
    (ts : List Tuner) (h : NoSkipConflict st.reserves) :
    NoSkipConflict (cancel st id2).1.reserves ∧
    NoSkipConflict (removeSkip st id2).1.reserves ∧
    NoSkipConflict (addReserve cat chk now st pid enc).1.reserves ∧
    NoSkipConflict (updateAll cat rstore st).1.reserves ∧
    NoSkipConflict (updateRule cat rstore st rid).1.reserves ∧
    NoSkipConflict (clean st now2).reserves ∧
    NoSkipConflict (setTuners st ts).reserves := by
  refine ⟨?_, ?_, ?_, ?_, ?_, ?_, h⟩
  · rcases cancel_reserves st id2 with he | he <;> rw [he]
    · exact h
    · intro x hx hc
      obtain ⟨y, hy, -, hcase⟩ := cancelList_src id2 st.reserves x hx
      rcases hcase with rfl | rfl
      · exact h _ hy hc
      · simp at hc
  · rcases removeSkip_reserves st id2 with he | he <;> rw [he]
    · exact h
    · intro x hx hc
      obtain ⟨y, hy, -, -, hcase⟩ := removeSkipList_src id2 st.reserves x hx
      rcases hcase with rfl | rfl
      · exact h _ hy hc
      · simp at hc
  · rcases addReserve_reserves cat chk now st pid enc with he | ⟨p, he⟩ <;> rw [he]
    · exact h
    · intro x hx hc
      rcases List.mem_append.mp (mem_sortBy.mp hx) with h1 | h2
      · exact h x h1 hc
      · rcases List.mem_cons.mp h2 with rfl | h3
        · simp [newManualReserve] at hc
        · simp at h3
  · rcases updateAll_reserves cat rstore st with he | ⟨rules, -, he⟩ <;> rw [he]
    · exact h
    · refine createReserves_noSkipConflict _ _ ?_
      intro m hm hc
      rcases List.mem_append.mp hm with h1 | h2
      · obtain ⟨y, hy, p0, ps0, -, rfl⟩ := manualMatches_mem cat st.reserves m h1
        exact h y hy hc
      · obtain ⟨hcf, -, -⟩ := ruleMatches_mem cat _ rules m h2
        rw [hcf] at hc
        simp at hc
  · rcases updateRule_reserves cat rstore st rid with he | ⟨cands, hcf, he⟩ <;> rw [he]
    · exact h
    · refine createReserves_noSkipConflict _ _ ?_
      intro m hm hc
      rw [hcf m hm] at hc
      simp at hc
  · intro x hx hc
    exact h x (List.mem_filter.mp hx).1 hc

/-- Closed witness for C7: the invariant holds after `clean` on a concrete
state. -/
theorem C7_skip_conflict_exclusive_witness :
    NoSkipConflict (clean stC2 400).reserves :=
  (C7_skip_conflict_exclusive stC2 catEmpty rstoreEmpty (fun _ => true) 0 0 0 0 400 none []
    (by unfold NoSkipConflict; decide)).2.2.2.2.2.1

/-- C8: the reservation list is sorted ascending by `startAt` after every
operation (the ops that rebuild the list sort it; the in-place ops preserve
sortedness of a sorted list), and every public read of a sorted state
(`getReservesAll` and the filtered readers, with any limit/offset) returns a
sorted list. -/
theorem C8_sorted_by_start (st : ManagerState) (cat : Catalogue) (rstore : RuleStore)
    (chk : EncodeInterface → Bool) (now pid rid id2 now2 : Nat) (enc : Option EncodeInterface)
    (ts : List Tuner) (limit : Option Nat) (off : Nat) (h : SortedByStart st.reserves) :
    SortedByStart (cancel st id2).1.reserves ∧
    SortedByStart (removeSkip st id2).1.reserves ∧
    SortedByStart (addReserve cat chk now st pid enc).1.reserves ∧
    SortedByStart (updateAll cat rstore st).1.reserves ∧
    SortedByStart (updateRule cat rstore st rid).1.reserves ∧
    SortedByStart (clean st now2).reserves ∧
    SortedByStart (setTuners st ts).reserves ∧
    SortedByStart (getReservesAll st limit off) ∧
    SortedByStart (getReserves st limit off).reserves ∧
    SortedByStart (getConflicts st limit off).reserves ∧
    SortedByStart (getSkips st limit off).reserves := by
  have hsortOut : ∀ (l : List ReserveProgram), SortedByStart (sortBy startLe l) := by
    intro l
    exact (pairwise_sortBy startLe startLe_total startLe_trans l).imp
      (fun hab => by simpa [startLe] using hab)
  refine ⟨?_, ?_, ?_, ?_, ?_, ?_, h, ?_, ?_, ?_, ?_⟩
  · rcases cancel_reserves st id2 with he | he <;> rw [he]
    · exact h
    · exact cancelList_sorted id2 st.reserves h
  · rcases removeSkip_reserves st id2 with he | he <;> rw [he]
    · exact h
    · exact removeSkipList_sorted id2 st.reserves h
  · rcases addReserve_reserves cat chk now st pid enc with he | ⟨p, he⟩ <;> rw [he]
    · exact h
    · exact hsortOut _
  · rcases updateAll_reserves cat rstore st with he | ⟨rules, -, he⟩ <;> rw [he]
    · exact h
    · exact createReserves_sorted _ _
  · rcases updateRule_reserves cat rstore st rid with he | ⟨cands, -, he⟩ <;> rw [he]
    · exact h
    · exact createReserves_sorted _ _
  · exact List.Pairwise.sublist (List.filter_sublist _) h
  · cases limit with
    | none => exact h
    | some lim =>
      exact List.Pairwise.sublist ((List.take_sublist _ _).trans (List.drop_sublist _ _)) h
  · exact List.Pairwise.sublist
      ((sliceOpt_sublist _ _ _).trans (List.filter_sublist _)) h
  · exact List.Pairwise.sublist
      ((sliceOpt_sublist _ _ _).trans (List.filter_sublist _)) h
  · exact List.Pairwise.sublist
      ((sliceOpt_sublist _ _ _).trans (List.filter_sublist _)) h

/-- Closed witness for C8: sortedness after a concrete `addReserve`. -/
theorem C8_sorted_by_start_witness :
    SortedByStart (addReserve catC2 (fun _ => true) 1000 stC2 2 none).1.reserves :=
  (C8_sorted_by_start stC2 catC2 rstoreEmpty (fun _ => true) 1000 2 0 0 0 none [] none 0
    (by unfold SortedByStart; decide)).2.2.1
